import Mathlib

/-!
Shallow embedding of `src/minmaxheap_chaurasia.hpp`: a generic array-backed
`MinHeap` and `MaxHeap` (binary heaps over a totally ordered element type),
together with proofs of the specified properties.

The C++ backing store `std::vector<T> data` is modelled as a `List T`;
indexed reads `data[i]` become `l.getD i default` (all reads performed by the
source are in bounds); `std::swap(data[i], data[j])` becomes `swapAt l i j`;
`push_back`/`pop_back` become append/`dropLast`.  The `throw` of
`std::out_of_range` on an empty heap is modelled with `Except HeapError`.
The loop in `bubbleUp` is embedded with explicit fuel (the starting index
bounds its iteration count); the recursive `bubbleDown` is embedded both as a
fuel-based loop (`bubbleDownAux`, fuel `l.length` suffices) and literally as
the source's recursion (`bubbleDownRec`), proved equal below.
-/

/-- The single error kind of the component: a peek/remove on an empty heap
(the C++ code throws `std::out_of_range`). -/
inductive HeapError where
  | emptyStructure
deriving DecidableEq

/-- The public operations of either heap class. -/
inductive HeapOp (T : Type) where
  | enqueue (item : T)
  | dequeue
  | peek
  | getSize
  | isEmpty

/-- Observable result of one operation call: `unit` for `void` returns,
`val` for `peek`, `num` for `getSize`, `bool` for `isEmpty`, `err` for a
thrown exception. -/
inductive HeapObs (T : Type) where
  | unit
  | val (v : T)
  | num (n : Nat)
  | bool (b : Bool)
  | err (e : HeapError)
deriving DecidableEq

/-- `std::swap(data[i], data[j])` on the backing sequence. -/
def swapAt {T : Type} [Inhabited T] (l : List T) (i j : Nat) : List T :=
  (l.set i (l.getD j default)).set j (l.getD i default)

/-- Number of (always-successful) `enqueue` calls in a trace. -/
def countIns {T : Type} (tr : List (HeapOp T × HeapObs T)) : Nat :=
  tr.countP fun x => match x.1 with
    | HeapOp.enqueue _ => true
    | _ => false

/-- Number of successful `dequeue` calls in a trace. -/
def countRemOk {T : Type} (tr : List (HeapOp T × HeapObs T)) : Nat :=
  tr.countP fun x => match x with
    | (HeapOp.dequeue, HeapObs.err _) => false
    | (HeapOp.dequeue, _) => true
    | _ => false

namespace MinHeap

variable {T : Type} [LinearOrder T] [Inhabited T]

/-- `MinHeap::bubbleUp`: the while-loop, with explicit fuel.  Each iteration
moves `index` to its parent `(index - 1) / 2`, which at least halves it, so
`index` itself bounds the iteration count; `bubbleUp` supplies that fuel. -/
def bubbleUpAux : Nat → List T → Nat → List T
  | 0, l, _ => l
  | fuel + 1, l, index =>
    if 0 < index then
      let parentIndex := (index - 1) / 2
      if l.getD parentIndex default > l.getD index default then
        bubbleUpAux fuel (swapAt l parentIndex index) parentIndex
      else l
    else l

/-- `MinHeap::bubbleUp(int index)`. -/
def bubbleUp (l : List T) (index : Nat) : List T :=
  bubbleUpAux index l index

/-- `MinHeap::bubbleDown`: the recursion, with explicit fuel.  Each recursive
call strictly increases `index` while indices stay below `l.length`, so
`l.length` fuel suffices; `bubbleDown` supplies it.  `bubbleDownRec` below is
the literal recursive form, proved equal to this one. -/
def bubbleDownAux : Nat → List T → Nat → List T
  | 0, l, _ => l
  | fuel + 1, l, index =>
    let leftChildIndex := 2 * index + 1
    let rightChildIndex := 2 * index + 2
    let s1 :=
      if leftChildIndex < l.length ∧ l.getD leftChildIndex default < l.getD index default then
        leftChildIndex
      else index
    let smallest :=
      if rightChildIndex < l.length ∧ l.getD rightChildIndex default < l.getD s1 default then
        rightChildIndex
      else s1
    if smallest ≠ index then bubbleDownAux fuel (swapAt l index smallest) smallest
    else l

/-- `MinHeap::bubbleDown(int index)`. -/
def bubbleDown (l : List T) (index : Nat) : List T :=
  bubbleDownAux l.length l index

/-- `MinHeap::bubbleDown` embedded literally as the source's recursion. -/
def bubbleDownRec (l : List T) (index : Nat) : List T :=
  let leftChildIndex := 2 * index + 1
  let rightChildIndex := 2 * index + 2
  let s1 :=
    if leftChildIndex < l.length ∧ l.getD leftChildIndex default < l.getD index default then
      leftChildIndex
    else index
  let smallest :=
    if rightChildIndex < l.length ∧ l.getD rightChildIndex default < l.getD s1 default then
      rightChildIndex
    else s1
  if smallest ≠ index then bubbleDownRec (swapAt l index smallest) smallest
  else l
termination_by l.length - index
decreasing_by
  simp only [swapAt, List.length_set]
  unfold smallest s1 leftChildIndex rightChildIndex at *
  split_ifs at * <;> omega

/-- Number of recursive calls `MinHeap::bubbleDown` performs from `index`. -/
def bubbleDownDepth (l : List T) (index : Nat) : Nat :=
  let leftChildIndex := 2 * index + 1
  let rightChildIndex := 2 * index + 2
  let s1 :=
    if leftChildIndex < l.length ∧ l.getD leftChildIndex default < l.getD index default then
      leftChildIndex
    else index
  let smallest :=
    if rightChildIndex < l.length ∧ l.getD rightChildIndex default < l.getD s1 default then
      rightChildIndex
    else s1
  if smallest ≠ index then bubbleDownDepth (swapAt l index smallest) smallest + 1
  else 0
termination_by l.length - index
decreasing_by
  simp only [swapAt, List.length_set]
  unfold smallest s1 leftChildIndex rightChildIndex at *
  split_ifs at * <;> omega

/-- `MinHeap::enqueue`: `push_back` then `bubbleUp(data.size() - 1)`. -/
def enqueue (l : List T) (item : T) : List T :=
  bubbleUp (l ++ [item]) ((l ++ [item]).length - 1)

/-- The successful branch of `MinHeap::dequeue`: `data[0] = data.back();
data.pop_back();` then `bubbleDown(0)` if still non-empty. -/
def dequeueData (l : List T) : List T :=
  let l1 := (l.set 0 (l.getD (l.length - 1) default)).dropLast
  if l1.isEmpty then l1 else bubbleDown l1 0

/-- `MinHeap::dequeue` (void-returning; throws on an empty heap). -/
def dequeue (l : List T) : Except HeapError (List T) :=
  if l.isEmpty then Except.error HeapError.emptyStructure
  else Except.ok (dequeueData l)

/-- `MinHeap::peek` (returns `data.front()` by value; throws on empty). -/
def peek (l : List T) : Except HeapError T :=
  if l.isEmpty then Except.error HeapError.emptyStructure
  else Except.ok (l.getD 0 default)

/-- `MinHeap::getSize`. -/
def getSize (l : List T) : Nat := l.length

/-- `MinHeap::isEmpty`. -/
def isEmpty (l : List T) : Bool := l.isEmpty

/-- The min-heap-order invariant as the spec states it: every in-bounds
parent/child pair `(i, c)` (children of `i` at `2i+1` and `2i+2`) satisfies
`storage[i] <= storage[c]`. -/
def heapInv (l : List T) : Prop :=
  ∀ i, i < l.length → ∀ c, c < l.length →
    (c = 2 * i + 1 ∨ c = 2 * i + 2) → l.getD i default ≤ l.getD c default

instance (l : List T) : Decidable (heapInv l) := by
  unfold heapInv
  exact Nat.decidableBallLT _ _

/-- Parent-indexed restatement of `heapInv`, convenient in proofs. -/
def heapInvP (l : List T) : Prop :=
  ∀ c, c < l.length → 0 < c → l.getD ((c - 1) / 2) default ≤ l.getD c default

/-- The invariant may fail only on the edge into `c = i`, and the grandparent
of `i` already bounds the children of `i`: the precondition `bubbleUp`
repairs. -/
def upInv (l : List T) (i : Nat) : Prop :=
  (∀ c, c < l.length → 0 < c → c ≠ i →
    l.getD ((c - 1) / 2) default ≤ l.getD c default) ∧
  (∀ c, c < l.length → 0 < i → (c - 1) / 2 = i →
    l.getD ((i - 1) / 2) default ≤ l.getD c default)

/-- The invariant may fail only on the edges out of `i`, and the parent of
`i` already bounds the children of `i`: the precondition `bubbleDown`
repairs. -/
def downInv (l : List T) (i : Nat) : Prop :=
  (∀ c, c < l.length → 0 < c → (c - 1) / 2 ≠ i →
    l.getD ((c - 1) / 2) default ≤ l.getD c default) ∧
  (∀ c, c < l.length → 0 < i → (c - 1) / 2 = i →
    l.getD ((i - 1) / 2) default ≤ l.getD c default)

/-- The full state of a `MinHeap` object: the element sequence plus the
backing vector's (unobservable) reserved capacity. -/
structure State (T : Type) where
  data : List T
  cap : Nat
deriving DecidableEq

/-- `MinHeap()` — the default constructor. -/
def init : State T := ⟨[], 0⟩

/-- `MinHeap(int initialSize)` — the capacity-hint constructor (`reserve`). -/
def initCap (initialSize : Nat) : State T := ⟨[], initialSize⟩

/-- One public method call on a `MinHeap` object: the observable result and
the state afterwards.  `push_back` may grow the capacity; `peek`, `getSize`
and `isEmpty` are `const` methods. -/
def step (s : State T) : HeapOp T → HeapObs T × State T
  | HeapOp.enqueue item =>
    (HeapObs.unit, ⟨enqueue s.data item, max s.cap (s.data.length + 1)⟩)
  | HeapOp.dequeue =>
    match dequeue s.data with
    | Except.error e => (HeapObs.err e, s)
    | Except.ok d => (HeapObs.unit, ⟨d, s.cap⟩)
  | HeapOp.peek =>
    match peek s.data with
    | Except.error e => (HeapObs.err e, s)
    | Except.ok v => (HeapObs.val v, s)
  | HeapOp.getSize => (HeapObs.num (getSize s.data), s)
  | HeapOp.isEmpty => (HeapObs.bool (isEmpty s.data), s)

/-- Run a call sequence, collecting the trace of (call, observation). -/
def runTr (s : State T) : List (HeapOp T) → List (HeapOp T × HeapObs T) × State T
  | [] => ([], s)
  | op :: ops =>
    let r := step s op
    let rest := runTr r.2 ops
    ((op, r.1) :: rest.1, rest.2)

/-- Repeated `peek`+`dequeue` until empty (fuel `l.length` suffices, since
each `dequeue` shrinks the sequence by one). -/
def drainAux : Nat → List T → List T
  | 0, _ => []
  | fuel + 1, l =>
    if l.isEmpty then [] else l.getD 0 default :: drainAux fuel (dequeueData l)

/-- Drain a heap completely by repeated `peek`+`dequeue`. -/
def drain (l : List T) : List T := drainAux l.length l

/-- Insert a list of values, one `enqueue` at a time, into an empty heap. -/
def build (vs : List T) : List T := vs.foldl enqueue []

/-- Sift-down as worded in the spec: "compute the smaller of the two children
(when present) and the current node; if a child is strictly smaller, swap with
that child and continue from the child's position; otherwise stop", the left
child preferred when the children are equal-smallest.  Written from the
spec's words, for comparison against the source's `bubbleDown`. -/
def siftDownSpec : Nat → List T → Nat → List T
  | 0, l, _ => l
  | fuel + 1, l, i =>
    if 2 * i + 1 < l.length then
      let c :=
        if 2 * i + 2 < l.length ∧ l.getD (2 * i + 2) default < l.getD (2 * i + 1) default then
          2 * i + 2
        else 2 * i + 1
      if l.getD c default < l.getD i default then siftDownSpec fuel (swapAt l i c) c
      else l
    else l

/-- `removeMin` as worded in the spec: overwrite the root slot with the last
element, shrink the sequence by one, then repair downward from the root if
still non-empty; no value is returned. -/
def removeMinSpec (l : List T) : Except HeapError (List T) :=
  if l.isEmpty then Except.error HeapError.emptyStructure
  else
    let l1 := (l.set 0 (l.getD (l.length - 1) default)).dropLast
    if l1.isEmpty then Except.ok l1
    else Except.ok (siftDownSpec l1.length l1 0)

end MinHeap

namespace MaxHeap

variable {T : Type} [LinearOrder T] [Inhabited T]

/-- `MaxHeap::bubbleUp`: as in `MinHeap` with the comparison inverted
(`data[parentIndex] < data[index]`). -/
def bubbleUpAux : Nat → List T → Nat → List T
  | 0, l, _ => l
  | fuel + 1, l, index =>
    if 0 < index then
      let parentIndex := (index - 1) / 2
      if l.getD parentIndex default < l.getD index default then
        bubbleUpAux fuel (swapAt l parentIndex index) parentIndex
      else l
    else l

/-- `MaxHeap::bubbleUp(int index)`. -/
def bubbleUp (l : List T) (index : Nat) : List T :=
  bubbleUpAux index l index

/-- `MaxHeap::bubbleDown`: as in `MinHeap` with both comparisons inverted,
selecting the largest of the node and its children. -/
def bubbleDownAux : Nat → List T → Nat → List T
  | 0, l, _ => l
  | fuel + 1, l, index =>
    let leftChildIndex := 2 * index + 1
    let rightChildIndex := 2 * index + 2
    let s1 :=
      if leftChildIndex < l.length ∧ l.getD leftChildIndex default > l.getD index default then
        leftChildIndex
      else index
    let largest :=
      if rightChildIndex < l.length ∧ l.getD rightChildIndex default > l.getD s1 default then
        rightChildIndex
      else s1
    if largest ≠ index then bubbleDownAux fuel (swapAt l index largest) largest
    else l

/-- `MaxHeap::bubbleDown(int index)`. -/
def bubbleDown (l : List T) (index : Nat) : List T :=
  bubbleDownAux l.length l index

/-- `MaxHeap::bubbleDown` embedded literally as the source's recursion. -/
def bubbleDownRec (l : List T) (index : Nat) : List T :=
  let leftChildIndex := 2 * index + 1
  let rightChildIndex := 2 * index + 2
  let s1 :=
    if leftChildIndex < l.length ∧ l.getD leftChildIndex default > l.getD index default then
      leftChildIndex
    else index
  let largest :=
    if rightChildIndex < l.length ∧ l.getD rightChildIndex default > l.getD s1 default then
      rightChildIndex
    else s1
  if largest ≠ index then bubbleDownRec (swapAt l index largest) largest
  else l
termination_by l.length - index
decreasing_by
  simp only [swapAt, List.length_set]
  unfold largest s1 leftChildIndex rightChildIndex at *
  split_ifs at * <;> omega

/-- Number of recursive calls `MaxHeap::bubbleDown` performs from `index`. -/
def bubbleDownDepth (l : List T) (index : Nat) : Nat :=
  let leftChildIndex := 2 * index + 1
  let rightChildIndex := 2 * index + 2
  let s1 :=
    if leftChildIndex < l.length ∧ l.getD leftChildIndex default > l.getD index default then
      leftChildIndex
    else index
  let largest :=
    if rightChildIndex < l.length ∧ l.getD rightChildIndex default > l.getD s1 default then
      rightChildIndex
    else s1
  if largest ≠ index then bubbleDownDepth (swapAt l index largest) largest + 1
  else 0
termination_by l.length - index
decreasing_by
  simp only [swapAt, List.length_set]
  unfold largest s1 leftChildIndex rightChildIndex at *
  split_ifs at * <;> omega

/-- `MaxHeap::enqueue`: `push_back` then `bubbleUp(data.size() - 1)`. -/
def enqueue (l : List T) (item : T) : List T :=
  bubbleUp (l ++ [item]) ((l ++ [item]).length - 1)

/-- The successful branch of `MaxHeap::dequeue`. -/
def dequeueData (l : List T) : List T :=
  let l1 := (l.set 0 (l.getD (l.length - 1) default)).dropLast
  if l1.isEmpty then l1 else bubbleDown l1 0

/-- `MaxHeap::dequeue` (void-returning; throws on an empty heap). -/
def dequeue (l : List T) : Except HeapError (List T) :=
  if l.isEmpty then Except.error HeapError.emptyStructure
  else Except.ok (dequeueData l)

/-- `MaxHeap::peek` (returns `data.front()` by value; throws on empty). -/
def peek (l : List T) : Except HeapError T :=
  if l.isEmpty then Except.error HeapError.emptyStructure
  else Except.ok (l.getD 0 default)

/-- `MaxHeap::getSize`. -/
def getSize (l : List T) : Nat := l.length

/-- `MaxHeap::isEmpty`. -/
def isEmpty (l : List T) : Bool := l.isEmpty

/-- The max-heap-order invariant as the spec states it: every in-bounds
parent/child pair `(i, c)` satisfies `storage[i] >= storage[c]`. -/
def heapInv (l : List T) : Prop :=
  ∀ i, i < l.length → ∀ c, c < l.length →
    (c = 2 * i + 1 ∨ c = 2 * i + 2) → l.getD i default ≥ l.getD c default

instance (l : List T) : Decidable (heapInv l) := by
  unfold heapInv
  exact Nat.decidableBallLT _ _

/-- Parent-indexed restatement of `MaxHeap.heapInv`. -/
def heapInvP (l : List T) : Prop :=
  ∀ c, c < l.length → 0 < c → l.getD c default ≤ l.getD ((c - 1) / 2) default

/-- Mirror of `MinHeap.upInv` with the order inverted. -/
def upInv (l : List T) (i : Nat) : Prop :=
  (∀ c, c < l.length → 0 < c → c ≠ i →
    l.getD c default ≤ l.getD ((c - 1) / 2) default) ∧
  (∀ c, c < l.length → 0 < i → (c - 1) / 2 = i →
    l.getD c default ≤ l.getD ((i - 1) / 2) default)

/-- Mirror of `MinHeap.downInv` with the order inverted. -/
def downInv (l : List T) (i : Nat) : Prop :=
  (∀ c, c < l.length → 0 < c → (c - 1) / 2 ≠ i →
    l.getD c default ≤ l.getD ((c - 1) / 2) default) ∧
  (∀ c, c < l.length → 0 < i → (c - 1) / 2 = i →
    l.getD c default ≤ l.getD ((i - 1) / 2) default)

/-- The full state of a `MaxHeap` object. -/
structure State (T : Type) where
  data : List T
  cap : Nat
deriving DecidableEq

/-- `MaxHeap()` — the default constructor. -/
def init : State T := ⟨[], 0⟩

/-- `MaxHeap(int initialSize)` — the capacity-hint constructor (`reserve`). -/
def initCap (initialSize : Nat) : State T := ⟨[], initialSize⟩

/-- One public method call on a `MaxHeap` object. -/
def step (s : State T) : HeapOp T → HeapObs T × State T
  | HeapOp.enqueue item =>
    (HeapObs.unit, ⟨enqueue s.data item, max s.cap (s.data.length + 1)⟩)
  | HeapOp.dequeue =>
    match dequeue s.data with
    | Except.error e => (HeapObs.err e, s)
    | Except.ok d => (HeapObs.unit, ⟨d, s.cap⟩)
  | HeapOp.peek =>
    match peek s.data with
    | Except.error e => (HeapObs.err e, s)
    | Except.ok v => (HeapObs.val v, s)
  | HeapOp.getSize => (HeapObs.num (getSize s.data), s)
  | HeapOp.isEmpty => (HeapObs.bool (isEmpty s.data), s)

/-- Run a call sequence, collecting the trace of (call, observation). -/
def runTr (s : State T) : List (HeapOp T) → List (HeapOp T × HeapObs T) × State T
  | [] => ([], s)
  | op :: ops =>
    let r := step s op
    let rest := runTr r.2 ops
    ((op, r.1) :: rest.1, rest.2)

/-- Repeated `peek`+`dequeue` until empty. -/
def drainAux : Nat → List T → List T
  | 0, _ => []
  | fuel + 1, l =>
    if l.isEmpty then [] else l.getD 0 default :: drainAux fuel (dequeueData l)

/-- Drain a heap completely by repeated `peek`+`dequeue`. -/
def drain (l : List T) : List T := drainAux l.length l

/-- Insert a list of values, one `enqueue` at a time, into an empty heap. -/
def build (vs : List T) : List T := vs.foldl enqueue []

/-- Sift-down as worded in the spec for the max variant: compute the larger
of the two children (when present) and the current node, preferring the left
child on ties; swap only if a child is strictly larger.  Written from the
spec's words, for comparison against the source's `bubbleDown`. -/
def siftDownSpec : Nat → List T → Nat → List T
  | 0, l, _ => l
  | fuel + 1, l, i =>
    if 2 * i + 1 < l.length then
      let c :=
        if 2 * i + 2 < l.length ∧ l.getD (2 * i + 1) default < l.getD (2 * i + 2) default then
          2 * i + 2
        else 2 * i + 1
      if l.getD i default < l.getD c default then siftDownSpec fuel (swapAt l i c) c
      else l
    else l

/-- `removeMax` as worded in the spec: overwrite the root slot with the last
element, shrink the sequence by one, then repair downward from the root if
still non-empty; no value is returned. -/
def removeMaxSpec (l : List T) : Except HeapError (List T) :=
  if l.isEmpty then Except.error HeapError.emptyStructure
  else
    let l1 := (l.set 0 (l.getD (l.length - 1) default)).dropLast
    if l1.isEmpty then Except.ok l1
    else Except.ok (siftDownSpec l1.length l1 0)

end MaxHeap

section GetDLemmas

variable {T : Type}

theorem getD_eq_getElem (l : List T) {i : Nat} (h : i < l.length) (d : T) :
    l.getD i d = l[i] := by
  simp [List.getD_eq_getElem?_getD, List.getElem?_eq_getElem h]

theorem getD_set_self (l : List T) {i : Nat} (h : i < l.length) (a d : T) :
    (l.set i a).getD i d = a := by
  simp [List.getD_eq_getElem?_getD, List.getElem?_set_self h]

theorem getD_set_ne (l : List T) {i j : Nat} (h : i ≠ j) (a d : T) :
    (l.set i a).getD j d = l.getD j d := by
  simp [List.getD_eq_getElem?_getD, List.getElem?_set_ne h]

theorem getD_append_lt {l l2 : List T} {k : Nat} (h : k < l.length) (d : T) :
    (l ++ l2).getD k d = l.getD k d := by
  simp [List.getD_eq_getElem?_getD, List.getElem?_append_left h]

variable [Inhabited T]

@[simp] theorem length_swapAt (l : List T) (i j : Nat) :
    (swapAt l i j).length = l.length := by
  simp [swapAt]

theorem getD_swapAt_fst (l : List T) {i j : Nat} (hij : i ≠ j) (hi : i < l.length) :
    (swapAt l i j).getD i default = l.getD j default := by
  rw [swapAt, getD_set_ne _ (Ne.symm hij), getD_set_self _ hi]

theorem getD_swapAt_snd (l : List T) {i j : Nat} (hj : j < l.length) :
    (swapAt l i j).getD j default = l.getD i default := by
  rw [swapAt, getD_set_self]
  simpa using hj

theorem getD_swapAt_other (l : List T) {i j k : Nat} (hk1 : k ≠ i) (hk2 : k ≠ j) :
    (swapAt l i j).getD k default = l.getD k default := by
  rw [swapAt, getD_set_ne _ (Ne.symm hk2), getD_set_ne _ (Ne.symm hk1)]

/-- Replacing one entry of the backing sequence replaces one occurrence in the
stored multiset. -/
theorem coe_set_add (l : List T) {i : Nat} (h : i < l.length) (a : T) :
    (↑(l.set i a) : Multiset T) + {l.getD i default} = ↑l + {a} := by
  induction l generalizing i with
  | nil => simp at h
  | cons x t ih =>
    cases i with
    | zero =>
      simp only [List.set_cons_zero, List.getD_eq_getElem?_getD, List.getElem?_cons_zero,
        Option.getD_some, ← Multiset.cons_coe, ← Multiset.singleton_add]
      abel
    | succ n =>
      have hn : n < t.length := by simpa using h
      have := ih hn
      simp only [List.set_cons_succ, ← Multiset.cons_coe, Multiset.cons_add,
        List.getD_eq_getElem?_getD, List.getElem?_cons_succ] at this ⊢
      rw [this]

/-- Swapping two distinct in-bounds entries preserves the stored multiset. -/
theorem coe_swapAt (l : List T) {i j : Nat} (hij : i ≠ j)
    (hi : i < l.length) (hj : j < l.length) :
    (↑(swapAt l i j) : Multiset T) = ↑l := by
  have hj' : j < (l.set i (l.getD j default)).length := by simpa using hj
  have h2 := coe_set_add (l.set i (l.getD j default)) hj' (l.getD i default)
  have h1 := coe_set_add l hi (l.getD j default)
  rw [getD_set_ne _ hij] at h2
  have hsum : (↑(swapAt l i j) : Multiset T) + {l.getD j default} + {l.getD i default}
      = ↑l + {l.getD j default} + {l.getD i default} := by
    rw [swapAt, h2]
    rw [add_right_comm, h1, add_right_comm]
  exact add_right_cancel (add_right_cancel hsum)

end GetDLemmas

/-! ### Index arithmetic for the array-encoded tree -/

theorem child_of_parent {i c : Nat} (h0 : 0 < c) (h : (c - 1) / 2 = i) :
    c = 2 * i + 1 ∨ c = 2 * i + 2 := by omega

/-! ### MinHeap: bubbleUp repairs the invariant -/

section MinProofs

variable {T : Type} [LinearOrder T] [Inhabited T]

theorem min_heapInvP_iff (l : List T) : MinHeap.heapInvP l ↔ MinHeap.heapInv l := by
  constructor
  · intro h i hi c hc hch
    have h0 : 0 < c := by omega
    have hp : (c - 1) / 2 = i := by omega
    have := h c hc h0
    rwa [hp] at this
  · intro h c hc h0
    exact h ((c - 1) / 2) (by omega) c hc (by omega)

theorem min_length_bubbleUpAux (fuel : Nat) :
    ∀ (l : List T) (i : Nat), (MinHeap.bubbleUpAux fuel l i).length = l.length := by
  induction fuel with
  | zero => intro l i; rfl
  | succ fuel ih =>
    intro l i
    simp only [MinHeap.bubbleUpAux]
    split_ifs
    all_goals first
    | rfl
    | (rw [ih]; simp [swapAt])

theorem min_coe_bubbleUpAux (fuel : Nat) :
    ∀ (l : List T) (i : Nat), i < l.length →
      (↑(MinHeap.bubbleUpAux fuel l i) : Multiset T) = ↑l := by
  induction fuel with
  | zero => intro l i _; rfl
  | succ fuel ih =>
    intro l i hi
    simp only [MinHeap.bubbleUpAux]
    split_ifs with h0 hsw
    · rw [ih _ _ (by rw [length_swapAt]; omega)]
      exact coe_swapAt l (by omega) (by omega) hi
    · rfl
    · rfl

theorem min_upInv_zero (l : List T) (hinv : MinHeap.upInv l 0) : MinHeap.heapInvP l :=
  fun c hc h0 => hinv.1 c hc h0 (by omega)

theorem min_upInv_stop (l : List T) (i : Nat) (h0 : 0 < i)
    (hinv : MinHeap.upInv l i) (hi : i < l.length)
    (hstop : ¬ l.getD ((i - 1) / 2) default > l.getD i default) :
    MinHeap.heapInvP l := by
  intro c hc hc0
  by_cases hci : c = i
  · subst hci
    exact not_lt.mp hstop
  · exact hinv.1 c hc hc0 hci

theorem min_upInv_swap (l : List T) (i : Nat) (h0 : 0 < i) (hi : i < l.length)
    (hinv : MinHeap.upInv l i)
    (hgt : l.getD ((i - 1) / 2) default > l.getD i default) :
    MinHeap.upInv (swapAt l ((i - 1) / 2) i) ((i - 1) / 2) := by
  obtain ⟨h1, h2⟩ := hinv
  have hpi : (i - 1) / 2 < i := by omega
  have hpn : (i - 1) / 2 < l.length := lt_trans hpi hi
  constructor
  · intro c hc hc0 hcp
    rw [length_swapAt] at hc
    by_cases hci : c = i
    · subst hci
      rw [getD_swapAt_fst l (by omega) hpn, getD_swapAt_snd l hc]
      exact le_of_lt hgt
    · by_cases hq : (c - 1) / 2 = (i - 1) / 2
      · rw [hq, getD_swapAt_fst l (by omega) hpn,
          getD_swapAt_other l hcp hci]
        have := h1 c hc hc0 hci
        rw [hq] at this
        exact le_trans (le_of_lt hgt) this
      · by_cases hqi : (c - 1) / 2 = i
        · rw [hqi, getD_swapAt_snd l hi, getD_swapAt_other l hcp hci]
          exact h2 c hc h0 hqi
        · rw [getD_swapAt_other l hq hqi, getD_swapAt_other l hcp hci]
          exact h1 c hc hc0 hci
  · intro c hc hp0 hq
    rw [length_swapAt] at hc
    have hg1 : ((i - 1) / 2 - 1) / 2 ≠ (i - 1) / 2 := by omega
    have hg2 : ((i - 1) / 2 - 1) / 2 ≠ i := by omega
    rw [getD_swapAt_other l hg1 hg2]
    by_cases hci : c = i
    · subst hci
      rw [getD_swapAt_snd l hi]
      exact h1 _ hpn hp0 (by omega)
    · have hcp : c ≠ (i - 1) / 2 := by omega
      rw [getD_swapAt_other l hcp hci]
      refine le_trans (h1 _ hpn hp0 (by omega)) ?_
      have := h1 c hc (by omega) hci
      rwa [hq] at this

theorem min_heapInvP_bubbleUpAux (fuel : Nat) :
    ∀ (l : List T) (i : Nat), i ≤ fuel → i < l.length → MinHeap.upInv l i →
      MinHeap.heapInvP (MinHeap.bubbleUpAux fuel l i) := by
  induction fuel with
  | zero =>
    intro l i hf _ hinv
    have : i = 0 := by omega
    subst this
    exact min_upInv_zero l hinv
  | succ fuel ih =>
    intro l i hf hi hinv
    simp only [MinHeap.bubbleUpAux]
    split_ifs with h0 hsw
    · exact ih _ _ (by omega) (by rw [length_swapAt]; omega)
        (min_upInv_swap l i h0 hi hinv hsw)
    · exact min_upInv_stop l i h0 hinv hi hsw
    · have : i = 0 := by omega
      subst this
      exact min_upInv_zero l hinv

theorem min_upInv_append (l : List T) (v : T) (h : MinHeap.heapInvP l) :
    MinHeap.upInv (l ++ [v]) l.length := by
  constructor
  · intro c hc hc0 hcn
    rw [List.length_append, List.length_singleton] at hc
    rw [getD_append_lt (by omega), getD_append_lt (by omega)]
    exact h c (by omega) hc0
  · intro c hc hn hq
    rw [List.length_append, List.length_singleton] at hc
    exact ((by omega : False).elim)

theorem min_heapInvP_enqueue (l : List T) (v : T) (h : MinHeap.heapInvP l) :
    MinHeap.heapInvP (MinHeap.enqueue l v) := by
  show MinHeap.heapInvP
    (MinHeap.bubbleUpAux ((l ++ [v]).length - 1) (l ++ [v]) ((l ++ [v]).length - 1))
  have hlen : (l ++ [v]).length - 1 = l.length := by simp
  rw [hlen]
  exact min_heapInvP_bubbleUpAux l.length (l ++ [v]) l.length le_rfl (by simp)
    (min_upInv_append l v h)

theorem min_length_enqueue (l : List T) (v : T) :
    (MinHeap.enqueue l v).length = l.length + 1 := by
  show (MinHeap.bubbleUpAux ((l ++ [v]).length - 1) (l ++ [v]) ((l ++ [v]).length - 1)).length
    = l.length + 1
  rw [min_length_bubbleUpAux]
  simp

theorem min_coe_enqueue (l : List T) (v : T) :
    (↑(MinHeap.enqueue l v) : Multiset T) = ↑l + {v} := by
  have h1 : (↑(MinHeap.enqueue l v) : Multiset T) = ↑(l ++ [v]) := by
    show (↑(MinHeap.bubbleUpAux ((l ++ [v]).length - 1) (l ++ [v]) ((l ++ [v]).length - 1))
      : Multiset T) = ↑(l ++ [v])
    exact min_coe_bubbleUpAux _ _ _ (by simp)
  rw [h1, ← Multiset.coe_singleton v, ← Multiset.coe_add]

end MinProofs

/-! ### MinHeap: bubbleDown repairs the invariant -/

section MinDownProofs

variable {T : Type} [LinearOrder T] [Inhabited T]

theorem min_downInv_swap (l : List T) (i s2 : Nat)
    (hs2n : s2 < l.length) (hpar : (s2 - 1) / 2 = i)
    (hlt : l.getD s2 default < l.getD i default)
    (hlc : 2 * i + 1 < l.length → l.getD s2 default ≤ l.getD (2 * i + 1) default)
    (hrc : 2 * i + 2 < l.length → l.getD s2 default ≤ l.getD (2 * i + 2) default)
    (hinv : MinHeap.downInv l i) :
    MinHeap.downInv (swapAt l i s2) s2 := by
  have hne : i ≠ s2 := fun h => absurd hlt (by rw [h]; exact lt_irrefl _)
  have his2 : i < s2 := by omega
  have hin : i < l.length := lt_trans his2 hs2n
  obtain ⟨h1, h2⟩ := hinv
  constructor
  · intro c hc hc0 hq
    rw [length_swapAt] at hc
    by_cases hci : c = i
    · subst hci
      have h0c : 0 < c := hc0
      rw [getD_swapAt_other l (by omega) (by omega), getD_swapAt_fst l hne hin]
      exact h2 s2 hs2n h0c hpar
    · by_cases hcs : c = s2
      · subst hcs
        rw [hpar, getD_swapAt_fst l hne hin, getD_swapAt_snd l hs2n]
        exact le_of_lt hlt
      · rw [getD_swapAt_other l hci hcs]
        by_cases hqi : (c - 1) / 2 = i
        · rw [hqi, getD_swapAt_fst l hne hin]
          rcases child_of_parent hc0 hqi with hcl | hcr
          · exact hcl ▸ hlc (hcl ▸ hc)
          · exact hcr ▸ hrc (hcr ▸ hc)
        · rw [getD_swapAt_other l hqi hq]
          exact h1 c hc hc0 hqi
  · intro c hc hs0 hq
    rw [length_swapAt] at hc
    have hcs2 : s2 < c := by omega
    rw [hpar, getD_swapAt_fst l hne hin,
      getD_swapAt_other l (by omega) (by omega)]
    have := h1 c hc (by omega) (by omega)
    rwa [hq] at this

theorem min_downInv_stop (l : List T) (i : Nat) (hinv : MinHeap.downInv l i)
    (hl : ¬(2 * i + 1 < l.length ∧ l.getD (2 * i + 1) default < l.getD i default))
    (hr : ¬(2 * i + 2 < l.length ∧ l.getD (2 * i + 2) default < l.getD i default)) :
    MinHeap.heapInvP l := by
  intro c hc hc0
  by_cases hq : (c - 1) / 2 = i
  · rw [hq]
    rcases child_of_parent hc0 hq with hcl | hcr
    · subst hcl
      exact not_lt.mp fun hb => hl ⟨hc, hb⟩
    · subst hcr
      exact not_lt.mp fun hb => hr ⟨hc, hb⟩
  · exact hinv.1 c hc hc0 hq

theorem min_heapInvP_bubbleDownAux (fuel : Nat) :
    ∀ (l : List T) (i : Nat), MinHeap.downInv l i → l.length ≤ fuel + i →
      MinHeap.heapInvP (MinHeap.bubbleDownAux fuel l i) := by
  induction fuel with
  | zero =>
    intro l i hinv hfi
    simp only [MinHeap.bubbleDownAux]
    intro c hc hc0
    by_cases hq : (c - 1) / 2 = i
    · exact ((by omega : False).elim)
    · exact hinv.1 c hc hc0 hq
  | succ fuel ih =>
    intro l i hinv hfi
    simp only [MinHeap.bubbleDownAux]
    by_cases hA : 2 * i + 1 < l.length ∧ l.getD (2 * i + 1) default < l.getD i default
    · rw [if_pos hA]
      by_cases hB : 2 * i + 2 < l.length ∧
          l.getD (2 * i + 2) default < l.getD (2 * i + 1) default
      · rw [if_pos hB, if_pos (by omega : 2 * i + 2 ≠ i)]
        refine ih _ _ ?_ (by rw [length_swapAt]; omega)
        exact min_downInv_swap l i (2 * i + 2) hB.1 (by omega)
          (lt_trans hB.2 hA.2) (fun _ => le_of_lt hB.2) (fun _ => le_rfl) hinv
      · rw [if_neg hB, if_pos (by omega : 2 * i + 1 ≠ i)]
        refine ih _ _ ?_ (by rw [length_swapAt]; omega)
        refine min_downInv_swap l i (2 * i + 1) hA.1 (by omega)
          hA.2 (fun _ => le_rfl) (fun hr => ?_) hinv
        exact not_lt.mp fun hb => hB ⟨hr, hb⟩
    · rw [if_neg hA]
      by_cases hB : 2 * i + 2 < l.length ∧
          l.getD (2 * i + 2) default < l.getD i default
      · rw [if_pos hB, if_pos (by omega : 2 * i + 2 ≠ i)]
        refine ih _ _ ?_ (by rw [length_swapAt]; omega)
        refine min_downInv_swap l i (2 * i + 2) hB.1 (by omega)
          hB.2 (fun hl => ?_) (fun _ => le_rfl) hinv
        exact le_of_lt (lt_of_lt_of_le hB.2 (not_lt.mp fun hb => hA ⟨hl, hb⟩))
      · rw [if_neg hB, if_neg (by omega : ¬ i ≠ i)]
        exact min_downInv_stop l i hinv hA hB

theorem min_coe_bubbleDownAux (fuel : Nat) :
    ∀ (l : List T) (i : Nat), (↑(MinHeap.bubbleDownAux fuel l i) : Multiset T) = ↑l := by
  induction fuel with
  | zero => intro l i; rfl
  | succ fuel ih =>
    intro l i
    simp only [MinHeap.bubbleDownAux]
    by_cases hA : 2 * i + 1 < l.length ∧ l.getD (2 * i + 1) default < l.getD i default
    · rw [if_pos hA]
      by_cases hB : 2 * i + 2 < l.length ∧
          l.getD (2 * i + 2) default < l.getD (2 * i + 1) default
      · rw [if_pos hB, if_pos (by omega : 2 * i + 2 ≠ i)]
        rw [ih, coe_swapAt l (by omega) (by omega) hB.1]
      · rw [if_neg hB, if_pos (by omega : 2 * i + 1 ≠ i)]
        rw [ih, coe_swapAt l (by omega) (by omega) hA.1]
    · rw [if_neg hA]
      by_cases hB : 2 * i + 2 < l.length ∧
          l.getD (2 * i + 2) default < l.getD i default
      · rw [if_pos hB, if_pos (by omega : 2 * i + 2 ≠ i)]
        rw [ih, coe_swapAt l (by omega) (by omega) hB.1]
      · rw [if_neg hB, if_neg (by omega : ¬ i ≠ i)]

theorem min_length_bubbleDownAux (fuel : Nat) :
    ∀ (l : List T) (i : Nat), (MinHeap.bubbleDownAux fuel l i).length = l.length := by
  induction fuel with
  | zero => intro l i; rfl
  | succ fuel ih =>
    intro l i
    simp only [MinHeap.bubbleDownAux]
    split_ifs
    all_goals first
    | rfl
    | (rw [ih]; simp [swapAt])

theorem min_length_dequeueData (l : List T) :
    (MinHeap.dequeueData l).length = l.length - 1 := by
  simp only [MinHeap.dequeueData]
  split_ifs with he
  · simp
  · show (MinHeap.bubbleDownAux _ _ 0).length = _
    rw [min_length_bubbleDownAux]
    simp

theorem min_getD_shrink (l : List T) (k : Nat) (hk : k < l.length - 1) :
    ((l.set 0 (l.getD (l.length - 1) default)).dropLast).getD k default
      = if k = 0 then l.getD (l.length - 1) default else l.getD k default := by
  have hlen : (l.set 0 (l.getD (l.length - 1) default)).length = l.length := by simp
  rw [List.getD_eq_getElem?_getD, List.getElem?_dropLast, hlen, if_pos hk]
  by_cases hk0 : k = 0
  · subst hk0
    rw [List.getElem?_set_self (by omega), if_pos rfl]
    rfl
  · rw [List.getElem?_set_ne (fun h => hk0 h.symm), if_neg hk0,
      ← List.getD_eq_getElem?_getD]

theorem min_downInv_shrink (l : List T) (h : MinHeap.heapInvP l) :
    MinHeap.downInv ((l.set 0 (l.getD (l.length - 1) default)).dropLast) 0 := by
  constructor
  · intro c hc hc0 hq
    have hlen : ((l.set 0 (l.getD (l.length - 1) default)).dropLast).length
        = l.length - 1 := by simp
    rw [hlen] at hc
    rw [min_getD_shrink l _ (by omega), min_getD_shrink l _ hc,
      if_neg hq, if_neg (by omega : ¬ c = 0)]
    exact h c (by omega) hc0
  · intro c hc h0 _
    exact absurd h0 (lt_irrefl 0)

theorem min_heapInvP_dequeueData (l : List T) (h : MinHeap.heapInvP l) :
    MinHeap.heapInvP (MinHeap.dequeueData l) := by
  simp only [MinHeap.dequeueData]
  split_ifs with he
  · rw [List.isEmpty_iff] at he
    rw [he]
    intro c hc hc0
    simp at hc
  · show MinHeap.heapInvP (MinHeap.bubbleDownAux _ _ 0)
    exact min_heapInvP_bubbleDownAux _ _ 0 (min_downInv_shrink l h) (by omega)

theorem coe_dropLast_add (l : List T) (h : l ≠ []) :
    (↑l.dropLast : Multiset T) + {l.getD (l.length - 1) default} = ↑l := by
  have h1 : l.getD (l.length - 1) default = l.getLast h := by
    rw [List.getLast_eq_getElem, getD_eq_getElem l
      (by have := List.length_pos.mpr h; omega)]
  rw [h1, ← Multiset.coe_singleton, Multiset.coe_add, List.dropLast_concat_getLast h]

theorem min_coe_dequeueData (l : List T) (h : l ≠ []) :
    (↑(MinHeap.dequeueData l) : Multiset T) + {l.getD 0 default} = ↑l := by
  have hn : 0 < l.length := List.length_pos.mpr h
  have hlen : (l.set 0 (l.getD (l.length - 1) default)).length = l.length := by simp
  have hset : l.set 0 (l.getD (l.length - 1) default) ≠ [] := by
    refine List.length_pos.mp ?_
    rw [hlen]
    exact hn
  have hgl : (l.set 0 (l.getD (l.length - 1) default)).getD
      ((l.set 0 (l.getD (l.length - 1) default)).length - 1) default
      = l.getD (l.length - 1) default := by
    rw [hlen]
    by_cases h1 : l.length - 1 = 0
    · rw [h1, getD_set_self l (by omega)]
    · rw [getD_set_ne l (by omega)]
  have h2 := coe_dropLast_add (l.set 0 (l.getD (l.length - 1) default)) hset
  rw [hgl] at h2
  have h3 := coe_set_add l hn (l.getD (l.length - 1) default)
  have hkey : (↑((l.set 0 (l.getD (l.length - 1) default)).dropLast) : Multiset T)
      + {l.getD 0 default} = ↑l := by
    refine add_right_cancel (b := ({l.getD (l.length - 1) default} : Multiset T)) ?_
    rw [add_right_comm, h2, h3]
  simp only [MinHeap.dequeueData]
  split_ifs with he
  · exact hkey
  · have hbd : (↑(MinHeap.bubbleDown ((l.set 0 (l.getD (l.length - 1) default)).dropLast) 0)
        : Multiset T) = ↑((l.set 0 (l.getD (l.length - 1) default)).dropLast) :=
      min_coe_bubbleDownAux _ _ 0
    rw [hbd]
    exact hkey

theorem min_getD_zero_le (l : List T) (h : MinHeap.heapInvP l) :
    ∀ j, j < l.length → l.getD 0 default ≤ l.getD j default := by
  intro j
  induction j using Nat.strong_induction_on with
  | _ j ih =>
    intro hj
    rcases Nat.eq_zero_or_pos j with hj0 | hj0
    · subst hj0
      exact le_rfl
    · exact le_trans (ih ((j - 1) / 2) (by omega) (by omega)) (h j hj hj0)

theorem min_coe_drainAux (fuel : Nat) :
    ∀ l : List T, l.length ≤ fuel → (↑(MinHeap.drainAux fuel l) : Multiset T) = ↑l := by
  induction fuel with
  | zero =>
    intro l hl
    have hnil : l = [] := List.length_eq_zero.mp (by omega)
    rw [hnil]
    rfl
  | succ fuel ih =>
    intro l hl
    simp only [MinHeap.drainAux]
    split_ifs with he
    · rw [List.isEmpty_iff.mp he]
    · rw [List.isEmpty_iff] at he
      rw [← Multiset.cons_coe, ih _ (by rw [min_length_dequeueData]; omega)]
      rw [← Multiset.singleton_add, add_comm]
      exact min_coe_dequeueData l he

theorem min_sorted_drainAux (fuel : Nat) :
    ∀ l : List T, l.length ≤ fuel → MinHeap.heapInvP l →
      List.Sorted (· ≤ ·) (MinHeap.drainAux fuel l) := by
  induction fuel with
  | zero =>
    intro l _ _
    exact List.sorted_nil
  | succ fuel ih =>
    intro l hl hinv
    simp only [MinHeap.drainAux]
    split_ifs with he
    · exact List.sorted_nil
    · rw [List.isEmpty_iff] at he
      refine List.sorted_cons.mpr ⟨?_, ih _ (by rw [min_length_dequeueData]; omega)
        (min_heapInvP_dequeueData l hinv)⟩
      intro b hb
      have hb1 : b ∈ (↑(MinHeap.drainAux fuel (MinHeap.dequeueData l)) : Multiset T) :=
        Multiset.mem_coe.mpr hb
      rw [min_coe_drainAux fuel _ (by rw [min_length_dequeueData]; omega)] at hb1
      have hb2 : b ∈ (↑l : Multiset T) := by
        rw [← min_coe_dequeueData l he]
        exact Multiset.mem_add.mpr (Or.inl hb1)
      obtain ⟨j, hj, rfl⟩ := List.mem_iff_getElem.mp (Multiset.mem_coe.mp hb2)
      rw [← getD_eq_getElem l hj]
      exact min_getD_zero_le l hinv j hj

theorem min_heapInvP_nil : MinHeap.heapInvP ([] : List T) := by
  intro c hc hc0
  simp at hc

theorem min_heapInvP_foldl (vs : List T) :
    ∀ acc : List T, MinHeap.heapInvP acc →
      MinHeap.heapInvP (vs.foldl MinHeap.enqueue acc) := by
  induction vs with
  | nil => intro acc h; exact h
  | cons v vs ih =>
    intro acc h
    exact ih _ (min_heapInvP_enqueue acc v h)

theorem min_coe_foldl (vs : List T) :
    ∀ acc : List T, (↑(vs.foldl MinHeap.enqueue acc) : Multiset T) = ↑acc + ↑vs := by
  induction vs with
  | nil => intro acc; simp
  | cons v vs ih =>
    intro acc
    rw [List.foldl_cons, ih, min_coe_enqueue, ← Multiset.cons_coe,
      ← Multiset.singleton_add]
    abel

theorem min_heapInvP_build (vs : List T) : MinHeap.heapInvP (MinHeap.build vs) :=
  min_heapInvP_foldl vs [] min_heapInvP_nil

theorem min_coe_build (vs : List T) : (↑(MinHeap.build vs) : Multiset T) = ↑vs := by
  show (↑(vs.foldl MinHeap.enqueue []) : Multiset T) = ↑vs
  rw [min_coe_foldl]
  rfl

theorem min_sorted_drain (l : List T) (h : MinHeap.heapInvP l) :
    List.Sorted (· ≤ ·) (MinHeap.drain l) :=
  min_sorted_drainAux l.length l le_rfl h

theorem min_coe_drain (l : List T) : (↑(MinHeap.drain l) : Multiset T) = ↑l :=
  min_coe_drainAux l.length l le_rfl

end MinDownProofs

/-! ### MinHeap: the public method calls, observations and traces -/

section MinStepProofs

variable {T : Type} [LinearOrder T] [Inhabited T]

theorem min_step_enqueue (s : MinHeap.State T) (v : T) :
    MinHeap.step s (HeapOp.enqueue v)
      = (HeapObs.unit, ⟨MinHeap.enqueue s.data v, max s.cap (s.data.length + 1)⟩) := rfl

theorem min_step_dequeue_empty (s : MinHeap.State T) (h : s.data = []) :
    MinHeap.step s HeapOp.dequeue = (HeapObs.err HeapError.emptyStructure, s) := by
  obtain ⟨d, c⟩ := s
  replace h : d = [] := h
  subst h
  rfl

theorem min_step_dequeue_ne (s : MinHeap.State T) (h : s.data ≠ []) :
    MinHeap.step s HeapOp.dequeue
      = (HeapObs.unit, ⟨MinHeap.dequeueData s.data, s.cap⟩) := by
  have hd : MinHeap.dequeue s.data = Except.ok (MinHeap.dequeueData s.data) := by
    simp only [MinHeap.dequeue]
    rw [if_neg (fun hc => h (List.isEmpty_iff.mp hc))]
  simp only [MinHeap.step, hd]

theorem min_step_peek_empty (s : MinHeap.State T) (h : s.data = []) :
    MinHeap.step s HeapOp.peek = (HeapObs.err HeapError.emptyStructure, s) := by
  obtain ⟨d, c⟩ := s
  replace h : d = [] := h
  subst h
  rfl

theorem min_step_peek_ne (s : MinHeap.State T) (h : s.data ≠ []) :
    MinHeap.step s HeapOp.peek = (HeapObs.val (s.data.getD 0 default), s) := by
  have hd : MinHeap.peek s.data = Except.ok (s.data.getD 0 default) := by
    simp only [MinHeap.peek]
    rw [if_neg (fun hc => h (List.isEmpty_iff.mp hc))]
  simp only [MinHeap.step, hd]

theorem min_step_getSize (s : MinHeap.State T) :
    MinHeap.step s HeapOp.getSize = (HeapObs.num s.data.length, s) := rfl

theorem min_step_isEmptyOp (s : MinHeap.State T) :
    MinHeap.step s HeapOp.isEmpty = (HeapObs.bool s.data.isEmpty, s) := rfl

theorem min_heapInvP_step (s : MinHeap.State T) (op : HeapOp T)
    (h : MinHeap.heapInvP s.data) : MinHeap.heapInvP ((MinHeap.step s op).2).data := by
  cases op with
  | enqueue v => exact min_heapInvP_enqueue _ _ h
  | dequeue =>
    by_cases he : s.data = []
    · rw [min_step_dequeue_empty s he]
      exact h
    · rw [min_step_dequeue_ne s he]
      exact min_heapInvP_dequeueData _ h
  | peek =>
    by_cases he : s.data = []
    · rw [min_step_peek_empty s he]
      exact h
    · rw [min_step_peek_ne s he]
      exact h
  | getSize => exact h
  | isEmpty => exact h

theorem min_heapInvP_runTr (ops : List (HeapOp T)) :
    ∀ s : MinHeap.State T, MinHeap.heapInvP s.data →
      MinHeap.heapInvP ((MinHeap.runTr s ops).2).data := by
  induction ops with
  | nil => intro s h; exact h
  | cons op ops ih => intro s h; exact ih _ (min_heapInvP_step s op h)

theorem min_size_runTr (ops : List (HeapOp T)) :
    ∀ s : MinHeap.State T,
      ((MinHeap.runTr s ops).2).data.length + countRemOk ((MinHeap.runTr s ops).1)
        = s.data.length + countIns ((MinHeap.runTr s ops).1) := by
  induction ops with
  | nil => intro s; rfl
  | cons op ops ih =>
    intro s
    cases op with
    | enqueue v =>
      have ih' := ih (MinHeap.step s (HeapOp.enqueue v)).2
      simp only [MinHeap.runTr, countIns, countRemOk, List.countP_cons, reduceIte,
        Bool.false_eq_true, if_true, if_false] at ih' ⊢
      simp only [min_step_enqueue] at ih' ⊢
      have hlen : (MinHeap.enqueue s.data v).length = s.data.length + 1 :=
        min_length_enqueue s.data v
      omega
    | dequeue =>
      by_cases he : s.data = []
      · have h1 := min_step_dequeue_empty s he
        have ih' := ih (MinHeap.step s HeapOp.dequeue).2
        simp only [MinHeap.runTr, countIns, countRemOk, List.countP_cons, h1, reduceIte,
          Bool.false_eq_true, if_true, if_false] at ih' ⊢
        omega
      · have h1 := min_step_dequeue_ne s he
        have ih' := ih (MinHeap.step s HeapOp.dequeue).2
        simp only [MinHeap.runTr, countIns, countRemOk, List.countP_cons, h1, reduceIte,
          Bool.false_eq_true, if_true, if_false] at ih' ⊢
        have hlen : (MinHeap.dequeueData s.data).length = s.data.length - 1 :=
          min_length_dequeueData s.data
        have hpos : 0 < s.data.length := List.length_pos.mpr he
        omega
    | peek =>
      by_cases he : s.data = []
      · have h1 := min_step_peek_empty s he
        have ih' := ih (MinHeap.step s HeapOp.peek).2
        simp only [MinHeap.runTr, countIns, countRemOk, List.countP_cons, h1, reduceIte,
          Bool.false_eq_true, if_true, if_false] at ih' ⊢
        omega
      · have h1 := min_step_peek_ne s he
        have ih' := ih (MinHeap.step s HeapOp.peek).2
        simp only [MinHeap.runTr, countIns, countRemOk, List.countP_cons, h1, reduceIte,
          Bool.false_eq_true, if_true, if_false] at ih' ⊢
        omega
    | getSize =>
      have ih' := ih (MinHeap.step s HeapOp.getSize).2
      simp only [MinHeap.runTr, countIns, countRemOk, List.countP_cons,
        min_step_getSize, reduceIte, Bool.false_eq_true, if_true, if_false] at ih' ⊢
      omega
    | isEmpty =>
      have ih' := ih (MinHeap.step s HeapOp.isEmpty).2
      simp only [MinHeap.runTr, countIns, countRemOk, List.countP_cons,
        min_step_isEmptyOp, reduceIte, Bool.false_eq_true, if_true, if_false] at ih' ⊢
      omega

theorem min_step_cap (s1 s2 : MinHeap.State T) (op : HeapOp T) (h : s1.data = s2.data) :
    (MinHeap.step s1 op).1 = (MinHeap.step s2 op).1 ∧
      ((MinHeap.step s1 op).2).data = ((MinHeap.step s2 op).2).data := by
  cases op with
  | enqueue v =>
    refine ⟨rfl, ?_⟩
    simp only [min_step_enqueue]
    rw [h]
  | dequeue =>
    by_cases he : s1.data = []
    · rw [min_step_dequeue_empty s1 he, min_step_dequeue_empty s2 (by rw [← h]; exact he)]
      exact ⟨rfl, h⟩
    · rw [min_step_dequeue_ne s1 he, min_step_dequeue_ne s2 (by rw [← h]; exact he)]
      refine ⟨rfl, ?_⟩
      show MinHeap.dequeueData s1.data = MinHeap.dequeueData s2.data
      rw [h]
  | peek =>
    by_cases he : s1.data = []
    · rw [min_step_peek_empty s1 he, min_step_peek_empty s2 (by rw [← h]; exact he)]
      exact ⟨rfl, h⟩
    · rw [min_step_peek_ne s1 he, min_step_peek_ne s2 (by rw [← h]; exact he)]
      refine ⟨?_, h⟩
      rw [h]
  | getSize =>
    rw [min_step_getSize, min_step_getSize]
    exact ⟨by rw [h], h⟩
  | isEmpty =>
    rw [min_step_isEmptyOp, min_step_isEmptyOp]
    exact ⟨by rw [h], h⟩

theorem min_runTr_cap (ops : List (HeapOp T)) :
    ∀ s1 s2 : MinHeap.State T, s1.data = s2.data →
      (MinHeap.runTr s1 ops).1 = (MinHeap.runTr s2 ops).1 ∧
        ((MinHeap.runTr s1 ops).2).data = ((MinHeap.runTr s2 ops).2).data := by
  induction ops with
  | nil => intro s1 s2 h; exact ⟨rfl, h⟩
  | cons op ops ih =>
    intro s1 s2 h
    obtain ⟨ho, hd⟩ := min_step_cap s1 s2 op h
    obtain ⟨htr, hfin⟩ := ih _ _ hd
    constructor
    · simp only [MinHeap.runTr]
      rw [ho, htr]
    · simp only [MinHeap.runTr]
      exact hfin

end MinStepProofs

/-! ### MinHeap: spec-worded sift-down agrees with the source, recursion facts -/

section MinSpecDownProofs

variable {T : Type} [LinearOrder T] [Inhabited T]

theorem min_siftDownSpec_eq (fuel : Nat) :
    ∀ (l : List T) (i : Nat), MinHeap.siftDownSpec fuel l i = MinHeap.bubbleDownAux fuel l i := by
  induction fuel with
  | zero => intro l i; rfl
  | succ fuel ih =>
    intro l i
    simp only [MinHeap.siftDownSpec, MinHeap.bubbleDownAux]
    by_cases hlc : 2 * i + 1 < l.length
    · rw [if_pos hlc]
      by_cases hrc : 2 * i + 2 < l.length
      · by_cases hcmp : l.getD (2 * i + 2) default < l.getD (2 * i + 1) default
        · have hc : (if 2 * i + 2 < l.length ∧
              l.getD (2 * i + 2) default < l.getD (2 * i + 1) default then (2 * i + 2 : Nat)
              else 2 * i + 1) = 2 * i + 2 := if_pos ⟨hrc, hcmp⟩
          rw [hc]
          by_cases hsw : l.getD (2 * i + 2) default < l.getD i default
          · rw [if_pos hsw]
            by_cases hA : l.getD (2 * i + 1) default < l.getD i default
            · rw [if_pos (⟨hlc, hA⟩ : 2 * i + 1 < l.length ∧
                l.getD (2 * i + 1) default < l.getD i default), hc,
                if_pos (by omega : 2 * i + 2 ≠ i), ih]
            · have hA' : ¬(2 * i + 1 < l.length ∧
                  l.getD (2 * i + 1) default < l.getD i default) := fun hx => hA hx.2
              rw [if_neg hA', if_pos (⟨hrc, hsw⟩ : 2 * i + 2 < l.length ∧
                l.getD (2 * i + 2) default < l.getD i default),
                if_pos (by omega : 2 * i + 2 ≠ i), ih]
          · rw [if_neg hsw]
            have hA' : ¬(2 * i + 1 < l.length ∧
                l.getD (2 * i + 1) default < l.getD i default) := fun hx =>
              hsw (lt_trans hcmp hx.2)
            have hB' : ¬(2 * i + 2 < l.length ∧
                l.getD (2 * i + 2) default < l.getD i default) := fun hx => hsw hx.2
            rw [if_neg hA', if_neg hB', if_neg (by omega : ¬ i ≠ i)]
        · have hc : (if 2 * i + 2 < l.length ∧
              l.getD (2 * i + 2) default < l.getD (2 * i + 1) default then (2 * i + 2 : Nat)
              else 2 * i + 1) = 2 * i + 1 := if_neg (fun hx => hcmp hx.2)
          rw [hc]
          by_cases hsw : l.getD (2 * i + 1) default < l.getD i default
          · rw [if_pos hsw, if_pos (⟨hlc, hsw⟩ : 2 * i + 1 < l.length ∧
              l.getD (2 * i + 1) default < l.getD i default)]
            have hB' : ¬(2 * i + 2 < l.length ∧
                l.getD (2 * i + 2) default < l.getD (2 * i + 1) default) := fun hx => hcmp hx.2
            rw [if_neg hB', if_pos (by omega : 2 * i + 1 ≠ i), ih]
          · rw [if_neg hsw]
            have hA' : ¬(2 * i + 1 < l.length ∧
                l.getD (2 * i + 1) default < l.getD i default) := fun hx => hsw hx.2
            have hB' : ¬(2 * i + 2 < l.length ∧
                l.getD (2 * i + 2) default < l.getD i default) := fun hx =>
              absurd hx.2 (not_lt.mpr (le_trans (not_lt.mp hsw) (not_lt.mp hcmp)))
            rw [if_neg hA', if_neg hB', if_neg (by omega : ¬ i ≠ i)]
      · have hc : (if 2 * i + 2 < l.length ∧
            l.getD (2 * i + 2) default < l.getD (2 * i + 1) default then (2 * i + 2 : Nat)
            else 2 * i + 1) = 2 * i + 1 := if_neg (fun hx => hrc hx.1)
        rw [hc]
        by_cases hsw : l.getD (2 * i + 1) default < l.getD i default
        · rw [if_pos hsw, if_pos (⟨hlc, hsw⟩ : 2 * i + 1 < l.length ∧
            l.getD (2 * i + 1) default < l.getD i default)]
          have hB' : ¬(2 * i + 2 < l.length ∧
              l.getD (2 * i + 2) default < l.getD (2 * i + 1) default) := fun hx => hrc hx.1
          rw [if_neg hB', if_pos (by omega : 2 * i + 1 ≠ i), ih]
        · rw [if_neg hsw]
          have hA' : ¬(2 * i + 1 < l.length ∧
              l.getD (2 * i + 1) default < l.getD i default) := fun hx => hsw hx.2
          have hB' : ¬(2 * i + 2 < l.length ∧
              l.getD (2 * i + 2) default < l.getD i default) := fun hx => hrc hx.1
          rw [if_neg hA', if_neg hB', if_neg (by omega : ¬ i ≠ i)]
    · rw [if_neg hlc]
      have hA' : ¬(2 * i + 1 < l.length ∧
          l.getD (2 * i + 1) default < l.getD i default) := fun hx => hlc hx.1
      have hB' : ¬(2 * i + 2 < l.length ∧
          l.getD (2 * i + 2) default < l.getD i default) := fun hx => hlc (by omega)
      rw [if_neg hA', if_neg hB', if_neg (by omega : ¬ i ≠ i)]

theorem min_removeMinSpec_eq (l : List T) :
    MinHeap.removeMinSpec l = MinHeap.dequeue l := by
  simp only [MinHeap.removeMinSpec, MinHeap.dequeue, MinHeap.dequeueData]
  split_ifs with h1 h2
  · rfl
  · rfl
  · rw [min_siftDownSpec_eq]
    rfl

theorem min_bubbleDownRec_eq_aux (fuel : Nat) :
    ∀ (l : List T) (i : Nat), l.length ≤ fuel + i →
      MinHeap.bubbleDownRec l i = MinHeap.bubbleDownAux fuel l i := by
  induction fuel with
  | zero =>
    intro l i hfi
    rw [MinHeap.bubbleDownRec]
    simp only [MinHeap.bubbleDownAux]
    have hA' : ¬(2 * i + 1 < l.length ∧
        l.getD (2 * i + 1) default < l.getD i default) := fun hx => absurd hx.1 (by omega)
    have hB' : ¬(2 * i + 2 < l.length ∧
        l.getD (2 * i + 2) default < l.getD i default) := fun hx => absurd hx.1 (by omega)
    rw [if_neg hA', if_neg hB', if_neg (by omega : ¬ i ≠ i)]
  | succ fuel ih =>
    intro l i hfi
    rw [MinHeap.bubbleDownRec]
    simp only [MinHeap.bubbleDownAux]
    by_cases hA : 2 * i + 1 < l.length ∧ l.getD (2 * i + 1) default < l.getD i default
    · rw [if_pos hA]
      by_cases hB : 2 * i + 2 < l.length ∧
          l.getD (2 * i + 2) default < l.getD (2 * i + 1) default
      · rw [if_pos hB, ih _ _ (by simp [swapAt]; omega)]
      · rw [if_neg hB, ih _ _ (by simp [swapAt]; omega)]
    · rw [if_neg hA]
      by_cases hB : 2 * i + 2 < l.length ∧
          l.getD (2 * i + 2) default < l.getD i default
      · rw [if_pos hB, ih _ _ (by simp [swapAt]; omega)]
      · have hni : ¬ i ≠ i := by omega
        rw [if_neg hB, if_neg hni, if_neg hni]

theorem min_bubbleDownRec_eq (l : List T) (i : Nat) :
    MinHeap.bubbleDownRec l i = MinHeap.bubbleDown l i :=
  min_bubbleDownRec_eq_aux l.length l i (by omega)

theorem min_depth_bound_aux (k : Nat) :
    ∀ (l : List T) (i : Nat), l.length - i ≤ k → i < l.length →
      (i + 1) * 2 ^ MinHeap.bubbleDownDepth l i ≤ l.length + 1 := by
  induction k with
  | zero =>
    intro l i hk hi
    exact ((by omega : False).elim)
  | succ k ih =>
    intro l i hk hi
    rw [MinHeap.bubbleDownDepth]
    by_cases hA : 2 * i + 1 < l.length ∧ l.getD (2 * i + 1) default < l.getD i default
    · rw [if_pos hA]
      by_cases hB : 2 * i + 2 < l.length ∧
          l.getD (2 * i + 2) default < l.getD (2 * i + 1) default
      · rw [if_pos hB, if_pos (by omega : 2 * i + 2 ≠ i)]
        have hrec := ih (swapAt l i (2 * i + 2)) (2 * i + 2)
          (by simp [swapAt]; omega) (by simp [swapAt]; omega)
        rw [length_swapAt] at hrec
        calc (i + 1) * 2 ^ (MinHeap.bubbleDownDepth (swapAt l i (2 * i + 2)) (2 * i + 2) + 1)
            = (2 * i + 2) * 2 ^ MinHeap.bubbleDownDepth (swapAt l i (2 * i + 2)) (2 * i + 2) := by
              ring
          _ ≤ (2 * i + 2 + 1) * 2 ^ MinHeap.bubbleDownDepth (swapAt l i (2 * i + 2)) (2 * i + 2) :=
              Nat.mul_le_mul_right _ (by omega)
          _ ≤ l.length + 1 := hrec
      · rw [if_neg hB, if_pos (by omega : 2 * i + 1 ≠ i)]
        have hrec := ih (swapAt l i (2 * i + 1)) (2 * i + 1)
          (by simp [swapAt]; omega) (by simp [swapAt]; omega)
        rw [length_swapAt] at hrec
        calc (i + 1) * 2 ^ (MinHeap.bubbleDownDepth (swapAt l i (2 * i + 1)) (2 * i + 1) + 1)
            = (2 * i + 2) * 2 ^ MinHeap.bubbleDownDepth (swapAt l i (2 * i + 1)) (2 * i + 1) := by
              ring
          _ ≤ l.length + 1 := hrec
    · rw [if_neg hA]
      by_cases hB : 2 * i + 2 < l.length ∧
          l.getD (2 * i + 2) default < l.getD i default
      · rw [if_pos hB, if_pos (by omega : 2 * i + 2 ≠ i)]
        have hrec := ih (swapAt l i (2 * i + 2)) (2 * i + 2)
          (by simp [swapAt]; omega) (by simp [swapAt]; omega)
        rw [length_swapAt] at hrec
        calc (i + 1) * 2 ^ (MinHeap.bubbleDownDepth (swapAt l i (2 * i + 2)) (2 * i + 2) + 1)
            = (2 * i + 2) * 2 ^ MinHeap.bubbleDownDepth (swapAt l i (2 * i + 2)) (2 * i + 2) := by
              ring
          _ ≤ (2 * i + 2 + 1) * 2 ^ MinHeap.bubbleDownDepth (swapAt l i (2 * i + 2)) (2 * i + 2) :=
              Nat.mul_le_mul_right _ (by omega)
          _ ≤ l.length + 1 := hrec
      · rw [if_neg hB, if_neg (by omega : ¬ i ≠ i)]
        simpa using (by omega : i + 1 ≤ l.length + 1)

theorem min_depth_log (l : List T) (i : Nat) (h : i < l.length) :
    MinHeap.bubbleDownDepth l i ≤ Nat.log 2 (l.length + 1) := by
  have hb := min_depth_bound_aux (l.length - i) l i le_rfl h
  have h2 : 2 ^ MinHeap.bubbleDownDepth l i ≤ l.length + 1 :=
    le_trans (Nat.le_mul_of_pos_left _ (by omega)) hb
  exact (Nat.pow_le_iff_le_log one_lt_two (by omega)).mp h2

end MinSpecDownProofs

/-! ### MaxHeap: bubbleUp repairs the invariant (mirror of the MinHeap proofs) -/

section MaxProofs

variable {T : Type} [LinearOrder T] [Inhabited T]

theorem max_heapInvP_iff (l : List T) : MaxHeap.heapInvP l ↔ MaxHeap.heapInv l := by
  constructor
  · intro h i hi c hc hch
    have h0 : 0 < c := by omega
    have hp : (c - 1) / 2 = i := by omega
    have := h c hc h0
    rwa [hp] at this
  · intro h c hc h0
    exact h ((c - 1) / 2) (by omega) c hc (by omega)

theorem max_length_bubbleUpAux (fuel : Nat) :
    ∀ (l : List T) (i : Nat), (MaxHeap.bubbleUpAux fuel l i).length = l.length := by
  induction fuel with
  | zero => intro l i; rfl
  | succ fuel ih =>
    intro l i
    simp only [MaxHeap.bubbleUpAux]
    split_ifs
    all_goals first
    | rfl
    | (rw [ih]; simp [swapAt])

theorem max_coe_bubbleUpAux (fuel : Nat) :
    ∀ (l : List T) (i : Nat), i < l.length →
      (↑(MaxHeap.bubbleUpAux fuel l i) : Multiset T) = ↑l := by
  induction fuel with
  | zero => intro l i _; rfl
  | succ fuel ih =>
    intro l i hi
    simp only [MaxHeap.bubbleUpAux]
    split_ifs with h0 hsw
    · rw [ih _ _ (by rw [length_swapAt]; omega)]
      exact coe_swapAt l (by omega) (by omega) hi
    · rfl
    · rfl

theorem max_upInv_zero (l : List T) (hinv : MaxHeap.upInv l 0) : MaxHeap.heapInvP l :=
  fun c hc h0 => hinv.1 c hc h0 (by omega)

theorem max_upInv_stop (l : List T) (i : Nat) (h0 : 0 < i)
    (hinv : MaxHeap.upInv l i) (hi : i < l.length)
    (hstop : ¬ l.getD ((i - 1) / 2) default < l.getD i default) :
    MaxHeap.heapInvP l := by
  intro c hc hc0
  by_cases hci : c = i
  · subst hci
    exact not_lt.mp hstop
  · exact hinv.1 c hc hc0 hci

theorem max_upInv_swap (l : List T) (i : Nat) (h0 : 0 < i) (hi : i < l.length)
    (hinv : MaxHeap.upInv l i)
    (hgt : l.getD ((i - 1) / 2) default < l.getD i default) :
    MaxHeap.upInv (swapAt l ((i - 1) / 2) i) ((i - 1) / 2) := by
  obtain ⟨h1, h2⟩ := hinv
  have hpi : (i - 1) / 2 < i := by omega
  have hpn : (i - 1) / 2 < l.length := lt_trans hpi hi
  constructor
  · intro c hc hc0 hcp
    rw [length_swapAt] at hc
    by_cases hci : c = i
    · subst hci
      rw [getD_swapAt_fst l (by omega) hpn, getD_swapAt_snd l hc]
      exact le_of_lt hgt
    · by_cases hq : (c - 1) / 2 = (i - 1) / 2
      · rw [hq, getD_swapAt_fst l (by omega) hpn,
          getD_swapAt_other l hcp hci]
        have := h1 c hc hc0 hci
        rw [hq] at this
        exact le_trans this (le_of_lt hgt)
      · by_cases hqi : (c - 1) / 2 = i
        · rw [hqi, getD_swapAt_snd l hi, getD_swapAt_other l hcp hci]
          exact h2 c hc h0 hqi
        · rw [getD_swapAt_other l hq hqi, getD_swapAt_other l hcp hci]
          exact h1 c hc hc0 hci
  · intro c hc hp0 hq
    rw [length_swapAt] at hc
    have hg1 : ((i - 1) / 2 - 1) / 2 ≠ (i - 1) / 2 := by omega
    have hg2 : ((i - 1) / 2 - 1) / 2 ≠ i := by omega
    rw [getD_swapAt_other l hg1 hg2]
    by_cases hci : c = i
    · subst hci
      rw [getD_swapAt_snd l hi]
      exact h1 _ hpn hp0 (by omega)
    · have hcp : c ≠ (i - 1) / 2 := by omega
      rw [getD_swapAt_other l hcp hci]
      refine le_trans ?_ (h1 _ hpn hp0 (by omega))
      have := h1 c hc (by omega) hci
      rwa [hq] at this

theorem max_heapInvP_bubbleUpAux (fuel : Nat) :
    ∀ (l : List T) (i : Nat), i ≤ fuel → i < l.length → MaxHeap.upInv l i →
      MaxHeap.heapInvP (MaxHeap.bubbleUpAux fuel l i) := by
  induction fuel with
  | zero =>
    intro l i hf _ hinv
    have : i = 0 := by omega
    subst this
    exact max_upInv_zero l hinv
  | succ fuel ih =>
    intro l i hf hi hinv
    simp only [MaxHeap.bubbleUpAux]
    split_ifs with h0 hsw
    · exact ih _ _ (by omega) (by rw [length_swapAt]; omega)
        (max_upInv_swap l i h0 hi hinv hsw)
    · exact max_upInv_stop l i h0 hinv hi hsw
    · have : i = 0 := by omega
      subst this
      exact max_upInv_zero l hinv

theorem max_upInv_append (l : List T) (v : T) (h : MaxHeap.heapInvP l) :
    MaxHeap.upInv (l ++ [v]) l.length := by
  constructor
  · intro c hc hc0 hcn
    rw [List.length_append, List.length_singleton] at hc
    rw [getD_append_lt (by omega), getD_append_lt (by omega)]
    exact h c (by omega) hc0
  · intro c hc hn hq
    rw [List.length_append, List.length_singleton] at hc
    exact ((by omega : False).elim)

theorem max_heapInvP_enqueue (l : List T) (v : T) (h : MaxHeap.heapInvP l) :
    MaxHeap.heapInvP (MaxHeap.enqueue l v) := by
  show MaxHeap.heapInvP
    (MaxHeap.bubbleUpAux ((l ++ [v]).length - 1) (l ++ [v]) ((l ++ [v]).length - 1))
  have hlen : (l ++ [v]).length - 1 = l.length := by simp
  rw [hlen]
  exact max_heapInvP_bubbleUpAux l.length (l ++ [v]) l.length le_rfl (by simp)
    (max_upInv_append l v h)

theorem max_length_enqueue (l : List T) (v : T) :
    (MaxHeap.enqueue l v).length = l.length + 1 := by
  show (MaxHeap.bubbleUpAux ((l ++ [v]).length - 1) (l ++ [v]) ((l ++ [v]).length - 1)).length
    = l.length + 1
  rw [max_length_bubbleUpAux]
  simp

theorem max_coe_enqueue (l : List T) (v : T) :
    (↑(MaxHeap.enqueue l v) : Multiset T) = ↑l + {v} := by
  have h1 : (↑(MaxHeap.enqueue l v) : Multiset T) = ↑(l ++ [v]) := by
    show (↑(MaxHeap.bubbleUpAux ((l ++ [v]).length - 1) (l ++ [v]) ((l ++ [v]).length - 1))
      : Multiset T) = ↑(l ++ [v])
    exact max_coe_bubbleUpAux _ _ _ (by simp)
  rw [h1, ← Multiset.coe_singleton v, ← Multiset.coe_add]

end MaxProofs

/-! ### MaxHeap: bubbleDown repairs the invariant (mirror of the MinHeap proofs) -/

section MaxDownProofs

variable {T : Type} [LinearOrder T] [Inhabited T]

theorem max_downInv_swap (l : List T) (i s2 : Nat)
    (hs2n : s2 < l.length) (hpar : (s2 - 1) / 2 = i)
    (hlt : l.getD i default < l.getD s2 default)
    (hlc : 2 * i + 1 < l.length → l.getD (2 * i + 1) default ≤ l.getD s2 default)
    (hrc : 2 * i + 2 < l.length → l.getD (2 * i + 2) default ≤ l.getD s2 default)
    (hinv : MaxHeap.downInv l i) :
    MaxHeap.downInv (swapAt l i s2) s2 := by
  have hne : i ≠ s2 := fun h => absurd hlt (by rw [h]; exact lt_irrefl _)
  have his2 : i < s2 := by omega
  have hin : i < l.length := lt_trans his2 hs2n
  obtain ⟨h1, h2⟩ := hinv
  constructor
  · intro c hc hc0 hq
    rw [length_swapAt] at hc
    by_cases hci : c = i
    · subst hci
      have h0c : 0 < c := hc0
      rw [getD_swapAt_fst l hne hin, getD_swapAt_other l (by omega) (by omega)]
      exact h2 s2 hs2n h0c hpar
    · by_cases hcs : c = s2
      · subst hcs
        rw [hpar, getD_swapAt_fst l hne hin, getD_swapAt_snd l hs2n]
        exact le_of_lt hlt
      · rw [getD_swapAt_other l hci hcs]
        by_cases hqi : (c - 1) / 2 = i
        · rw [hqi, getD_swapAt_fst l hne hin]
          rcases child_of_parent hc0 hqi with hcl | hcr
          · exact hcl ▸ hlc (hcl ▸ hc)
          · exact hcr ▸ hrc (hcr ▸ hc)
        · rw [getD_swapAt_other l hqi hq]
          exact h1 c hc hc0 hqi
  · intro c hc hs0 hq
    rw [length_swapAt] at hc
    have hcs2 : s2 < c := by omega
    rw [hpar, getD_swapAt_fst l hne hin,
      getD_swapAt_other l (by omega) (by omega)]
    have := h1 c hc (by omega) (by omega)
    rwa [hq] at this

theorem max_downInv_stop (l : List T) (i : Nat) (hinv : MaxHeap.downInv l i)
    (hl : ¬(2 * i + 1 < l.length ∧ l.getD (2 * i + 1) default > l.getD i default))
    (hr : ¬(2 * i + 2 < l.length ∧ l.getD (2 * i + 2) default > l.getD i default)) :
    MaxHeap.heapInvP l := by
  intro c hc hc0
  by_cases hq : (c - 1) / 2 = i
  · rw [hq]
    rcases child_of_parent hc0 hq with hcl | hcr
    · subst hcl
      exact not_lt.mp fun hb => hl ⟨hc, hb⟩
    · subst hcr
      exact not_lt.mp fun hb => hr ⟨hc, hb⟩
  · exact hinv.1 c hc hc0 hq

theorem max_heapInvP_bubbleDownAux (fuel : Nat) :
    ∀ (l : List T) (i : Nat), MaxHeap.downInv l i → l.length ≤ fuel + i →
      MaxHeap.heapInvP (MaxHeap.bubbleDownAux fuel l i) := by
  induction fuel with
  | zero =>
    intro l i hinv hfi
    simp only [MaxHeap.bubbleDownAux]
    intro c hc hc0
    by_cases hq : (c - 1) / 2 = i
    · exact ((by omega : False).elim)
    · exact hinv.1 c hc hc0 hq
  | succ fuel ih =>
    intro l i hinv hfi
    simp only [MaxHeap.bubbleDownAux]
    by_cases hA : 2 * i + 1 < l.length ∧ l.getD (2 * i + 1) default > l.getD i default
    · rw [if_pos hA]
      by_cases hB : 2 * i + 2 < l.length ∧
          l.getD (2 * i + 2) default > l.getD (2 * i + 1) default
      · rw [if_pos hB, if_pos (by omega : 2 * i + 2 ≠ i)]
        refine ih _ _ ?_ (by rw [length_swapAt]; omega)
        exact max_downInv_swap l i (2 * i + 2) hB.1 (by omega)
          (lt_trans hA.2 hB.2) (fun _ => le_of_lt hB.2) (fun _ => le_rfl) hinv
      · rw [if_neg hB, if_pos (by omega : 2 * i + 1 ≠ i)]
        refine ih _ _ ?_ (by rw [length_swapAt]; omega)
        refine max_downInv_swap l i (2 * i + 1) hA.1 (by omega)
          hA.2 (fun _ => le_rfl) (fun hr => ?_) hinv
        exact not_lt.mp fun hb => hB ⟨hr, hb⟩
    · rw [if_neg hA]
      by_cases hB : 2 * i + 2 < l.length ∧
          l.getD (2 * i + 2) default > l.getD i default
      · rw [if_pos hB, if_pos (by omega : 2 * i + 2 ≠ i)]
        refine ih _ _ ?_ (by rw [length_swapAt]; omega)
        refine max_downInv_swap l i (2 * i + 2) hB.1 (by omega)
          hB.2 (fun hl => ?_) (fun _ => le_rfl) hinv
        exact le_of_lt (lt_of_le_of_lt (not_lt.mp fun hb => hA ⟨hl, hb⟩) hB.2)
      · rw [if_neg hB, if_neg (by omega : ¬ i ≠ i)]
        exact max_downInv_stop l i hinv hA hB

theorem max_coe_bubbleDownAux (fuel : Nat) :
    ∀ (l : List T) (i : Nat), (↑(MaxHeap.bubbleDownAux fuel l i) : Multiset T) = ↑l := by
  induction fuel with
  | zero => intro l i; rfl
  | succ fuel ih =>
    intro l i
    simp only [MaxHeap.bubbleDownAux]
    by_cases hA : 2 * i + 1 < l.length ∧ l.getD (2 * i + 1) default > l.getD i default
    · rw [if_pos hA]
      by_cases hB : 2 * i + 2 < l.length ∧
          l.getD (2 * i + 2) default > l.getD (2 * i + 1) default
      · rw [if_pos hB, if_pos (by omega : 2 * i + 2 ≠ i)]
        rw [ih, coe_swapAt l (by omega) (by omega) hB.1]
      · rw [if_neg hB, if_pos (by omega : 2 * i + 1 ≠ i)]
        rw [ih, coe_swapAt l (by omega) (by omega) hA.1]
    · rw [if_neg hA]
      by_cases hB : 2 * i + 2 < l.length ∧
          l.getD (2 * i + 2) default > l.getD i default
      · rw [if_pos hB, if_pos (by omega : 2 * i + 2 ≠ i)]
        rw [ih, coe_swapAt l (by omega) (by omega) hB.1]
      · rw [if_neg hB, if_neg (by omega : ¬ i ≠ i)]

theorem max_length_bubbleDownAux (fuel : Nat) :
    ∀ (l : List T) (i : Nat), (MaxHeap.bubbleDownAux fuel l i).length = l.length := by
  induction fuel with
  | zero => intro l i; rfl
  | succ fuel ih =>
    intro l i
    simp only [MaxHeap.bubbleDownAux]
    split_ifs
    all_goals first
    | rfl
    | (rw [ih]; simp [swapAt])

theorem max_length_dequeueData (l : List T) :
    (MaxHeap.dequeueData l).length = l.length - 1 := by
  simp only [MaxHeap.dequeueData]
  split_ifs with he
  · simp
  · show (MaxHeap.bubbleDownAux _ _ 0).length = _
    rw [max_length_bubbleDownAux]
    simp

theorem max_downInv_shrink (l : List T) (h : MaxHeap.heapInvP l) :
    MaxHeap.downInv ((l.set 0 (l.getD (l.length - 1) default)).dropLast) 0 := by
  constructor
  · intro c hc hc0 hq
    have hlen : ((l.set 0 (l.getD (l.length - 1) default)).dropLast).length
        = l.length - 1 := by simp
    rw [hlen] at hc
    rw [min_getD_shrink l _ hc, min_getD_shrink l _ (by omega),
      if_neg (by omega : ¬ c = 0), if_neg hq]
    exact h c (by omega) hc0
  · intro c hc h0 _
    exact absurd h0 (lt_irrefl 0)

theorem max_heapInvP_dequeueData (l : List T) (h : MaxHeap.heapInvP l) :
    MaxHeap.heapInvP (MaxHeap.dequeueData l) := by
  simp only [MaxHeap.dequeueData]
  split_ifs with he
  · rw [List.isEmpty_iff] at he
    rw [he]
    intro c hc hc0
    simp at hc
  · show MaxHeap.heapInvP (MaxHeap.bubbleDownAux _ _ 0)
    exact max_heapInvP_bubbleDownAux _ _ 0 (max_downInv_shrink l h) (by omega)

theorem max_coe_dequeueData (l : List T) (h : l ≠ []) :
    (↑(MaxHeap.dequeueData l) : Multiset T) + {l.getD 0 default} = ↑l := by
  have hn : 0 < l.length := List.length_pos.mpr h
  have hlen : (l.set 0 (l.getD (l.length - 1) default)).length = l.length := by simp
  have hset : l.set 0 (l.getD (l.length - 1) default) ≠ [] := by
    refine List.length_pos.mp ?_
    rw [hlen]
    exact hn
  have hgl : (l.set 0 (l.getD (l.length - 1) default)).getD
      ((l.set 0 (l.getD (l.length - 1) default)).length - 1) default
      = l.getD (l.length - 1) default := by
    rw [hlen]
    by_cases h1 : l.length - 1 = 0
    · rw [h1, getD_set_self l (by omega)]
    · rw [getD_set_ne l (by omega)]
  have h2 := coe_dropLast_add (l.set 0 (l.getD (l.length - 1) default)) hset
  rw [hgl] at h2
  have h3 := coe_set_add l hn (l.getD (l.length - 1) default)
  have hkey : (↑((l.set 0 (l.getD (l.length - 1) default)).dropLast) : Multiset T)
      + {l.getD 0 default} = ↑l := by
    refine add_right_cancel (b := ({l.getD (l.length - 1) default} : Multiset T)) ?_
    rw [add_right_comm, h2, h3]
  simp only [MaxHeap.dequeueData]
  split_ifs with he
  · exact hkey
  · have hbd : (↑(MaxHeap.bubbleDown ((l.set 0 (l.getD (l.length - 1) default)).dropLast) 0)
        : Multiset T) = ↑((l.set 0 (l.getD (l.length - 1) default)).dropLast) :=
      max_coe_bubbleDownAux _ _ 0
    rw [hbd]
    exact hkey

theorem max_getD_le_zero (l : List T) (h : MaxHeap.heapInvP l) :
    ∀ j, j < l.length → l.getD j default ≤ l.getD 0 default := by
  intro j
  induction j using Nat.strong_induction_on with
  | _ j ih =>
    intro hj
    rcases Nat.eq_zero_or_pos j with hj0 | hj0
    · subst hj0
      exact le_rfl
    · exact le_trans (h j hj hj0) (ih ((j - 1) / 2) (by omega) (by omega))

theorem max_coe_drainAux (fuel : Nat) :
    ∀ l : List T, l.length ≤ fuel → (↑(MaxHeap.drainAux fuel l) : Multiset T) = ↑l := by
  induction fuel with
  | zero =>
    intro l hl
    have hnil : l = [] := List.length_eq_zero.mp (by omega)
    rw [hnil]
    rfl
  | succ fuel ih =>
    intro l hl
    simp only [MaxHeap.drainAux]
    split_ifs with he
    · rw [List.isEmpty_iff.mp he]
    · rw [List.isEmpty_iff] at he
      rw [← Multiset.cons_coe, ih _ (by rw [max_length_dequeueData]; omega)]
      rw [← Multiset.singleton_add, add_comm]
      exact max_coe_dequeueData l he

theorem max_sorted_drainAux (fuel : Nat) :
    ∀ l : List T, l.length ≤ fuel → MaxHeap.heapInvP l →
      List.Sorted (· ≥ ·) (MaxHeap.drainAux fuel l) := by
  induction fuel with
  | zero =>
    intro l _ _
    exact List.sorted_nil
  | succ fuel ih =>
    intro l hl hinv
    simp only [MaxHeap.drainAux]
    split_ifs with he
    · exact List.sorted_nil
    · rw [List.isEmpty_iff] at he
      refine List.sorted_cons.mpr ⟨?_, ih _ (by rw [max_length_dequeueData]; omega)
        (max_heapInvP_dequeueData l hinv)⟩
      intro b hb
      have hb1 : b ∈ (↑(MaxHeap.drainAux fuel (MaxHeap.dequeueData l)) : Multiset T) :=
        Multiset.mem_coe.mpr hb
      rw [max_coe_drainAux fuel _ (by rw [max_length_dequeueData]; omega)] at hb1
      have hb2 : b ∈ (↑l : Multiset T) := by
        rw [← max_coe_dequeueData l he]
        exact Multiset.mem_add.mpr (Or.inl hb1)
      obtain ⟨j, hj, rfl⟩ := List.mem_iff_getElem.mp (Multiset.mem_coe.mp hb2)
      show l[j] ≤ l.getD 0 default
      rw [← getD_eq_getElem l hj]
      exact max_getD_le_zero l hinv j hj

theorem max_heapInvP_nil : MaxHeap.heapInvP ([] : List T) := by
  intro c hc hc0
  simp at hc

theorem max_heapInvP_foldl (vs : List T) :
    ∀ acc : List T, MaxHeap.heapInvP acc →
      MaxHeap.heapInvP (vs.foldl MaxHeap.enqueue acc) := by
  induction vs with
  | nil => intro acc h; exact h
  | cons v vs ih =>
    intro acc h
    exact ih _ (max_heapInvP_enqueue acc v h)

theorem max_coe_foldl (vs : List T) :
    ∀ acc : List T, (↑(vs.foldl MaxHeap.enqueue acc) : Multiset T) = ↑acc + ↑vs := by
  induction vs with
  | nil => intro acc; simp
  | cons v vs ih =>
    intro acc
    rw [List.foldl_cons, ih, max_coe_enqueue, ← Multiset.cons_coe,
      ← Multiset.singleton_add]
    abel

theorem max_heapInvP_build (vs : List T) : MaxHeap.heapInvP (MaxHeap.build vs) :=
  max_heapInvP_foldl vs [] max_heapInvP_nil

theorem max_coe_build (vs : List T) : (↑(MaxHeap.build vs) : Multiset T) = ↑vs := by
  show (↑(vs.foldl MaxHeap.enqueue []) : Multiset T) = ↑vs
  rw [max_coe_foldl]
  rfl

theorem max_sorted_drain (l : List T) (h : MaxHeap.heapInvP l) :
    List.Sorted (· ≥ ·) (MaxHeap.drain l) :=
  max_sorted_drainAux l.length l le_rfl h

theorem max_coe_drain (l : List T) : (↑(MaxHeap.drain l) : Multiset T) = ↑l :=
  max_coe_drainAux l.length l le_rfl

end MaxDownProofs

/-! ### MaxHeap: method calls, traces, spec sift-down, recursion facts -/

section MaxStepProofs

variable {T : Type} [LinearOrder T] [Inhabited T]

theorem max_step_enqueue (s : MaxHeap.State T) (v : T) :
    MaxHeap.step s (HeapOp.enqueue v)
      = (HeapObs.unit, ⟨MaxHeap.enqueue s.data v, max s.cap (s.data.length + 1)⟩) := rfl

theorem max_step_dequeue_empty (s : MaxHeap.State T) (h : s.data = []) :
    MaxHeap.step s HeapOp.dequeue = (HeapObs.err HeapError.emptyStructure, s) := by
  obtain ⟨d, c⟩ := s
  replace h : d = [] := h
  subst h
  rfl

theorem max_step_dequeue_ne (s : MaxHeap.State T) (h : s.data ≠ []) :
    MaxHeap.step s HeapOp.dequeue
      = (HeapObs.unit, ⟨MaxHeap.dequeueData s.data, s.cap⟩) := by
  have hd : MaxHeap.dequeue s.data = Except.ok (MaxHeap.dequeueData s.data) := by
    simp only [MaxHeap.dequeue]
    rw [if_neg (fun hc => h (List.isEmpty_iff.mp hc))]
  simp only [MaxHeap.step, hd]

theorem max_step_peek_empty (s : MaxHeap.State T) (h : s.data = []) :
    MaxHeap.step s HeapOp.peek = (HeapObs.err HeapError.emptyStructure, s) := by
  obtain ⟨d, c⟩ := s
  replace h : d = [] := h
  subst h
  rfl

theorem max_step_peek_ne (s : MaxHeap.State T) (h : s.data ≠ []) :
    MaxHeap.step s HeapOp.peek = (HeapObs.val (s.data.getD 0 default), s) := by
  have hd : MaxHeap.peek s.data = Except.ok (s.data.getD 0 default) := by
    simp only [MaxHeap.peek]
    rw [if_neg (fun hc => h (List.isEmpty_iff.mp hc))]
  simp only [MaxHeap.step, hd]

theorem max_step_getSize (s : MaxHeap.State T) :
    MaxHeap.step s HeapOp.getSize = (HeapObs.num s.data.length, s) := rfl

theorem max_step_isEmptyOp (s : MaxHeap.State T) :
    MaxHeap.step s HeapOp.isEmpty = (HeapObs.bool s.data.isEmpty, s) := rfl

theorem max_heapInvP_step (s : MaxHeap.State T) (op : HeapOp T)
    (h : MaxHeap.heapInvP s.data) : MaxHeap.heapInvP ((MaxHeap.step s op).2).data := by
  cases op with
  | enqueue v => exact max_heapInvP_enqueue _ _ h
  | dequeue =>
    by_cases he : s.data = []
    · rw [max_step_dequeue_empty s he]
      exact h
    · rw [max_step_dequeue_ne s he]
      exact max_heapInvP_dequeueData _ h
  | peek =>
    by_cases he : s.data = []
    · rw [max_step_peek_empty s he]
      exact h
    · rw [max_step_peek_ne s he]
      exact h
  | getSize => exact h
  | isEmpty => exact h

theorem max_heapInvP_runTr (ops : List (HeapOp T)) :
    ∀ s : MaxHeap.State T, MaxHeap.heapInvP s.data →
      MaxHeap.heapInvP ((MaxHeap.runTr s ops).2).data := by
  induction ops with
  | nil => intro s h; exact h
  | cons op ops ih => intro s h; exact ih _ (max_heapInvP_step s op h)

theorem max_size_runTr (ops : List (HeapOp T)) :
    ∀ s : MaxHeap.State T,
      ((MaxHeap.runTr s ops).2).data.length + countRemOk ((MaxHeap.runTr s ops).1)
        = s.data.length + countIns ((MaxHeap.runTr s ops).1) := by
  induction ops with
  | nil => intro s; rfl
  | cons op ops ih =>
    intro s
    cases op with
    | enqueue v =>
      have ih' := ih (MaxHeap.step s (HeapOp.enqueue v)).2
      simp only [MaxHeap.runTr, countIns, countRemOk, List.countP_cons, reduceIte,
        Bool.false_eq_true, if_true, if_false] at ih' ⊢
      simp only [max_step_enqueue] at ih' ⊢
      have hlen : (MaxHeap.enqueue s.data v).length = s.data.length + 1 :=
        max_length_enqueue s.data v
      omega
    | dequeue =>
      by_cases he : s.data = []
      · have h1 := max_step_dequeue_empty s he
        have ih' := ih (MaxHeap.step s HeapOp.dequeue).2
        simp only [MaxHeap.runTr, countIns, countRemOk, List.countP_cons, h1, reduceIte,
          Bool.false_eq_true, if_true, if_false] at ih' ⊢
        omega
      · have h1 := max_step_dequeue_ne s he
        have ih' := ih (MaxHeap.step s HeapOp.dequeue).2
        simp only [MaxHeap.runTr, countIns, countRemOk, List.countP_cons, h1, reduceIte,
          Bool.false_eq_true, if_true, if_false] at ih' ⊢
        have hlen : (MaxHeap.dequeueData s.data).length = s.data.length - 1 :=
          max_length_dequeueData s.data
        have hpos : 0 < s.data.length := List.length_pos.mpr he
        omega
    | peek =>
      by_cases he : s.data = []
      · have h1 := max_step_peek_empty s he
        have ih' := ih (MaxHeap.step s HeapOp.peek).2
        simp only [MaxHeap.runTr, countIns, countRemOk, List.countP_cons, h1, reduceIte,
          Bool.false_eq_true, if_true, if_false] at ih' ⊢
        omega
      · have h1 := max_step_peek_ne s he
        have ih' := ih (MaxHeap.step s HeapOp.peek).2
        simp only [MaxHeap.runTr, countIns, countRemOk, List.countP_cons, h1, reduceIte,
          Bool.false_eq_true, if_true, if_false] at ih' ⊢
        omega
    | getSize =>
      have ih' := ih (MaxHeap.step s HeapOp.getSize).2
      simp only [MaxHeap.runTr, countIns, countRemOk, List.countP_cons,
        max_step_getSize, reduceIte, Bool.false_eq_true, if_true, if_false] at ih' ⊢
      omega
    | isEmpty =>
      have ih' := ih (MaxHeap.step s HeapOp.isEmpty).2
      simp only [MaxHeap.runTr, countIns, countRemOk, List.countP_cons,
        max_step_isEmptyOp, reduceIte, Bool.false_eq_true, if_true, if_false] at ih' ⊢
      omega

theorem max_step_cap (s1 s2 : MaxHeap.State T) (op : HeapOp T) (h : s1.data = s2.data) :
    (MaxHeap.step s1 op).1 = (MaxHeap.step s2 op).1 ∧
      ((MaxHeap.step s1 op).2).data = ((MaxHeap.step s2 op).2).data := by
  cases op with
  | enqueue v =>
    refine ⟨rfl, ?_⟩
    simp only [max_step_enqueue]
    rw [h]
  | dequeue =>
    by_cases he : s1.data = []
    · rw [max_step_dequeue_empty s1 he, max_step_dequeue_empty s2 (by rw [← h]; exact he)]
      exact ⟨rfl, h⟩
    · rw [max_step_dequeue_ne s1 he, max_step_dequeue_ne s2 (by rw [← h]; exact he)]
      refine ⟨rfl, ?_⟩
      show MaxHeap.dequeueData s1.data = MaxHeap.dequeueData s2.data
      rw [h]
  | peek =>
    by_cases he : s1.data = []
    · rw [max_step_peek_empty s1 he, max_step_peek_empty s2 (by rw [← h]; exact he)]
      exact ⟨rfl, h⟩
    · rw [max_step_peek_ne s1 he, max_step_peek_ne s2 (by rw [← h]; exact he)]
      refine ⟨?_, h⟩
      rw [h]
  | getSize =>
    rw [max_step_getSize, max_step_getSize]
    exact ⟨by rw [h], h⟩
  | isEmpty =>
    rw [max_step_isEmptyOp, max_step_isEmptyOp]
    exact ⟨by rw [h], h⟩

theorem max_runTr_cap (ops : List (HeapOp T)) :
    ∀ s1 s2 : MaxHeap.State T, s1.data = s2.data →
      (MaxHeap.runTr s1 ops).1 = (MaxHeap.runTr s2 ops).1 ∧
        ((MaxHeap.runTr s1 ops).2).data = ((MaxHeap.runTr s2 ops).2).data := by
  induction ops with
  | nil => intro s1 s2 h; exact ⟨rfl, h⟩
  | cons op ops ih =>
    intro s1 s2 h
    obtain ⟨ho, hd⟩ := max_step_cap s1 s2 op h
    obtain ⟨htr, hfin⟩ := ih _ _ hd
    constructor
    · simp only [MaxHeap.runTr]
      rw [ho, htr]
    · simp only [MaxHeap.runTr]
      exact hfin

end MaxStepProofs

section MaxSpecDownProofs

variable {T : Type} [LinearOrder T] [Inhabited T]

theorem max_siftDownSpec_eq (fuel : Nat) :
    ∀ (l : List T) (i : Nat), MaxHeap.siftDownSpec fuel l i = MaxHeap.bubbleDownAux fuel l i := by
  induction fuel with
  | zero => intro l i; rfl
  | succ fuel ih =>
    intro l i
    simp only [MaxHeap.siftDownSpec, MaxHeap.bubbleDownAux]
    by_cases hlc : 2 * i + 1 < l.length
    · rw [if_pos hlc]
      by_cases hrc : 2 * i + 2 < l.length
      · by_cases hcmp : l.getD (2 * i + 1) default < l.getD (2 * i + 2) default
        · have hc : (if 2 * i + 2 < l.length ∧
              l.getD (2 * i + 1) default < l.getD (2 * i + 2) default then (2 * i + 2 : Nat)
              else 2 * i + 1) = 2 * i + 2 := if_pos ⟨hrc, hcmp⟩
          rw [hc]
          by_cases hsw : l.getD i default < l.getD (2 * i + 2) default
          · rw [if_pos hsw]
            by_cases hA : l.getD i default < l.getD (2 * i + 1) default
            · rw [if_pos (⟨hlc, hA⟩ : 2 * i + 1 < l.length ∧
                l.getD (2 * i + 1) default > l.getD i default),
                if_pos (⟨hrc, hcmp⟩ : 2 * i + 2 < l.length ∧
                  l.getD (2 * i + 2) default > l.getD (2 * i + 1) default),
                if_pos (by omega : 2 * i + 2 ≠ i), ih]
            · have hA' : ¬(2 * i + 1 < l.length ∧
                  l.getD (2 * i + 1) default > l.getD i default) := fun hx => hA hx.2
              rw [if_neg hA', if_pos (⟨hrc, hsw⟩ : 2 * i + 2 < l.length ∧
                l.getD (2 * i + 2) default > l.getD i default),
                if_pos (by omega : 2 * i + 2 ≠ i), ih]
          · rw [if_neg hsw]
            have hA' : ¬(2 * i + 1 < l.length ∧
                l.getD (2 * i + 1) default > l.getD i default) := fun hx =>
              hsw (lt_trans hx.2 hcmp)
            have hB' : ¬(2 * i + 2 < l.length ∧
                l.getD (2 * i + 2) default > l.getD i default) := fun hx => hsw hx.2
            rw [if_neg hA', if_neg hB', if_neg (by omega : ¬ i ≠ i)]
        · have hc : (if 2 * i + 2 < l.length ∧
              l.getD (2 * i + 1) default < l.getD (2 * i + 2) default then (2 * i + 2 : Nat)
              else 2 * i + 1) = 2 * i + 1 := if_neg (fun hx => hcmp hx.2)
          rw [hc]
          by_cases hsw : l.getD i default < l.getD (2 * i + 1) default
          · rw [if_pos hsw, if_pos (⟨hlc, hsw⟩ : 2 * i + 1 < l.length ∧
              l.getD (2 * i + 1) default > l.getD i default)]
            have hB' : ¬(2 * i + 2 < l.length ∧
                l.getD (2 * i + 2) default > l.getD (2 * i + 1) default) := fun hx => hcmp hx.2
            rw [if_neg hB', if_pos (by omega : 2 * i + 1 ≠ i), ih]
          · rw [if_neg hsw]
            have hA' : ¬(2 * i + 1 < l.length ∧
                l.getD (2 * i + 1) default > l.getD i default) := fun hx => hsw hx.2
            have hB' : ¬(2 * i + 2 < l.length ∧
                l.getD (2 * i + 2) default > l.getD i default) := fun hx =>
              absurd hx.2 (not_lt.mpr (le_trans (not_lt.mp hcmp) (not_lt.mp hsw)))
            rw [if_neg hA', if_neg hB', if_neg (by omega : ¬ i ≠ i)]
      · have hc : (if 2 * i + 2 < l.length ∧
            l.getD (2 * i + 1) default < l.getD (2 * i + 2) default then (2 * i + 2 : Nat)
            else 2 * i + 1) = 2 * i + 1 := if_neg (fun hx => hrc hx.1)
        rw [hc]
        by_cases hsw : l.getD i default < l.getD (2 * i + 1) default
        · rw [if_pos hsw, if_pos (⟨hlc, hsw⟩ : 2 * i + 1 < l.length ∧
            l.getD (2 * i + 1) default > l.getD i default)]
          have hB' : ¬(2 * i + 2 < l.length ∧
              l.getD (2 * i + 2) default > l.getD (2 * i + 1) default) := fun hx => hrc hx.1
          rw [if_neg hB', if_pos (by omega : 2 * i + 1 ≠ i), ih]
        · rw [if_neg hsw]
          have hA' : ¬(2 * i + 1 < l.length ∧
              l.getD (2 * i + 1) default > l.getD i default) := fun hx => hsw hx.2
          have hB' : ¬(2 * i + 2 < l.length ∧
              l.getD (2 * i + 2) default > l.getD i default) := fun hx => hrc hx.1
          rw [if_neg hA', if_neg hB', if_neg (by omega : ¬ i ≠ i)]
    · rw [if_neg hlc]
      have hA' : ¬(2 * i + 1 < l.length ∧
          l.getD (2 * i + 1) default > l.getD i default) := fun hx => hlc hx.1
      have hB' : ¬(2 * i + 2 < l.length ∧
          l.getD (2 * i + 2) default > l.getD i default) := fun hx => hlc (by omega)
      rw [if_neg hA', if_neg hB', if_neg (by omega : ¬ i ≠ i)]

theorem max_removeMaxSpec_eq (l : List T) :
    MaxHeap.removeMaxSpec l = MaxHeap.dequeue l := by
  simp only [MaxHeap.removeMaxSpec, MaxHeap.dequeue, MaxHeap.dequeueData]
  split_ifs with h1 h2
  · rfl
  · rfl
  · rw [max_siftDownSpec_eq]
    rfl

theorem max_bubbleDownRec_eq_aux (fuel : Nat) :
    ∀ (l : List T) (i : Nat), l.length ≤ fuel + i →
      MaxHeap.bubbleDownRec l i = MaxHeap.bubbleDownAux fuel l i := by
  induction fuel with
  | zero =>
    intro l i hfi
    rw [MaxHeap.bubbleDownRec]
    simp only [MaxHeap.bubbleDownAux]
    have hA' : ¬(2 * i + 1 < l.length ∧
        l.getD (2 * i + 1) default > l.getD i default) := fun hx => absurd hx.1 (by omega)
    have hB' : ¬(2 * i + 2 < l.length ∧
        l.getD (2 * i + 2) default > l.getD i default) := fun hx => absurd hx.1 (by omega)
    rw [if_neg hA', if_neg hB', if_neg (by omega : ¬ i ≠ i)]
  | succ fuel ih =>
    intro l i hfi
    rw [MaxHeap.bubbleDownRec]
    simp only [MaxHeap.bubbleDownAux]
    by_cases hA : 2 * i + 1 < l.length ∧ l.getD (2 * i + 1) default > l.getD i default
    · rw [if_pos hA]
      by_cases hB : 2 * i + 2 < l.length ∧
          l.getD (2 * i + 2) default > l.getD (2 * i + 1) default
      · rw [if_pos hB, ih _ _ (by simp [swapAt]; omega)]
      · rw [if_neg hB, ih _ _ (by simp [swapAt]; omega)]
    · rw [if_neg hA]
      by_cases hB : 2 * i + 2 < l.length ∧
          l.getD (2 * i + 2) default > l.getD i default
      · rw [if_pos hB, ih _ _ (by simp [swapAt]; omega)]
      · have hni : ¬ i ≠ i := by omega
        rw [if_neg hB, if_neg hni, if_neg hni]

theorem max_bubbleDownRec_eq (l : List T) (i : Nat) :
    MaxHeap.bubbleDownRec l i = MaxHeap.bubbleDown l i :=
  max_bubbleDownRec_eq_aux l.length l i (by omega)

theorem max_depth_bound_aux (k : Nat) :
    ∀ (l : List T) (i : Nat), l.length - i ≤ k → i < l.length →
      (i + 1) * 2 ^ MaxHeap.bubbleDownDepth l i ≤ l.length + 1 := by
  induction k with
  | zero =>
    intro l i hk hi
    exact ((by omega : False).elim)
  | succ k ih =>
    intro l i hk hi
    rw [MaxHeap.bubbleDownDepth]
    by_cases hA : 2 * i + 1 < l.length ∧ l.getD (2 * i + 1) default > l.getD i default
    · rw [if_pos hA]
      by_cases hB : 2 * i + 2 < l.length ∧
          l.getD (2 * i + 2) default > l.getD (2 * i + 1) default
      · rw [if_pos hB, if_pos (by omega : 2 * i + 2 ≠ i)]
        have hrec := ih (swapAt l i (2 * i + 2)) (2 * i + 2)
          (by simp [swapAt]; omega) (by simp [swapAt]; omega)
        rw [length_swapAt] at hrec
        calc (i + 1) * 2 ^ (MaxHeap.bubbleDownDepth (swapAt l i (2 * i + 2)) (2 * i + 2) + 1)
            = (2 * i + 2) * 2 ^ MaxHeap.bubbleDownDepth (swapAt l i (2 * i + 2)) (2 * i + 2) := by
              ring
          _ ≤ (2 * i + 2 + 1) * 2 ^ MaxHeap.bubbleDownDepth (swapAt l i (2 * i + 2)) (2 * i + 2) :=
              Nat.mul_le_mul_right _ (by omega)
          _ ≤ l.length + 1 := hrec
      · rw [if_neg hB, if_pos (by omega : 2 * i + 1 ≠ i)]
        have hrec := ih (swapAt l i (2 * i + 1)) (2 * i + 1)
          (by simp [swapAt]; omega) (by simp [swapAt]; omega)
        rw [length_swapAt] at hrec
        calc (i + 1) * 2 ^ (MaxHeap.bubbleDownDepth (swapAt l i (2 * i + 1)) (2 * i + 1) + 1)
            = (2 * i + 2) * 2 ^ MaxHeap.bubbleDownDepth (swapAt l i (2 * i + 1)) (2 * i + 1) := by
              ring
          _ ≤ l.length + 1 := hrec
    · rw [if_neg hA]
      by_cases hB : 2 * i + 2 < l.length ∧
          l.getD (2 * i + 2) default > l.getD i default
      · rw [if_pos hB, if_pos (by omega : 2 * i + 2 ≠ i)]
        have hrec := ih (swapAt l i (2 * i + 2)) (2 * i + 2)
          (by simp [swapAt]; omega) (by simp [swapAt]; omega)
        rw [length_swapAt] at hrec
        calc (i + 1) * 2 ^ (MaxHeap.bubbleDownDepth (swapAt l i (2 * i + 2)) (2 * i + 2) + 1)
            = (2 * i + 2) * 2 ^ MaxHeap.bubbleDownDepth (swapAt l i (2 * i + 2)) (2 * i + 2) := by
              ring
          _ ≤ (2 * i + 2 + 1) * 2 ^ MaxHeap.bubbleDownDepth (swapAt l i (2 * i + 2)) (2 * i + 2) :=
              Nat.mul_le_mul_right _ (by omega)
          _ ≤ l.length + 1 := hrec
      · rw [if_neg hB, if_neg (by omega : ¬ i ≠ i)]
        simpa using (by omega : i + 1 ≤ l.length + 1)

theorem max_depth_log (l : List T) (i : Nat) (h : i < l.length) :
    MaxHeap.bubbleDownDepth l i ≤ Nat.log 2 (l.length + 1) := by
  have hb := max_depth_bound_aux (l.length - i) l i le_rfl h
  have h2 : 2 ^ MaxHeap.bubbleDownDepth l i ≤ l.length + 1 :=
    le_trans (Nat.le_mul_of_pos_left _ (by omega)) hb
  exact (Nat.pow_le_iff_le_log one_lt_two (by omega)).mp h2

end MaxSpecDownProofs

/-! ### The claims -/

/-- Claim C1: for every sequence of interleaved `insert` (`enqueue`) and
remove (`dequeue`) calls — indeed of arbitrary public method calls —
starting from an empty heap, after every call the heap-order invariant holds
over the whole backing sequence: in a `MinHeap`, `storage[i] <= storage[c]`
for every in-bounds parent/child pair; in a `MaxHeap`, `storage[i] >=
storage[c]`. -/
theorem claim_C1_invariant (T : Type) [LinearOrder T] [Inhabited T]
    (ops : List (HeapOp T)) :
    MinHeap.heapInv ((MinHeap.runTr MinHeap.init ops).2).data ∧
    MaxHeap.heapInv ((MaxHeap.runTr MaxHeap.init ops).2).data := by
  constructor
  · exact (min_heapInvP_iff _).mp (min_heapInvP_runTr ops MinHeap.init min_heapInvP_nil)
  · exact (max_heapInvP_iff _).mp (max_heapInvP_runTr ops MaxHeap.init max_heapInvP_nil)

/-- Claim C2: inserting `[5, 3, 8, 1, 9, 2]` into a `MinHeap` and draining it
by repeated `peek`+`dequeue` yields `1, 2, 3, 5, 8, 9` (a `MaxHeap` yields
`9, 8, 5, 3, 2, 1`); and for every finite sequence of insertions followed by
full drainage, the output is non-decreasing (`MinHeap`) / non-increasing
(`MaxHeap`) and its multiset equals the multiset of the inserted values. -/
theorem claim_C2_extraction :
    MinHeap.drain (MinHeap.build ([5, 3, 8, 1, 9, 2] : List ℕ)) = [1, 2, 3, 5, 8, 9] ∧
    MaxHeap.drain (MaxHeap.build ([5, 3, 8, 1, 9, 2] : List ℕ)) = [9, 8, 5, 3, 2, 1] ∧
    ∀ (T : Type) [LinearOrder T] [Inhabited T] (vs : List T),
      List.Sorted (· ≤ ·) (MinHeap.drain (MinHeap.build vs)) ∧
      (↑(MinHeap.drain (MinHeap.build vs)) : Multiset T) = ↑vs ∧
      List.Sorted (· ≥ ·) (MaxHeap.drain (MaxHeap.build vs)) ∧
      (↑(MaxHeap.drain (MaxHeap.build vs)) : Multiset T) = ↑vs := by
  refine ⟨by decide, by decide, ?_⟩
  intro T _ _ vs
  exact ⟨min_sorted_drain _ (min_heapInvP_build vs),
    (min_coe_drain _).trans (min_coe_build vs),
    max_sorted_drain _ (max_heapInvP_build vs),
    (max_coe_drain _).trans (max_coe_build vs)⟩

/-- Claim C3: on a heap with zero elements, every `peek` and every `dequeue`
call signals `EmptyStructure` (deterministically — `step` is a function) and
leaves the state unchanged. -/
theorem claim_C3_empty_errors (T : Type) [LinearOrder T] [Inhabited T]
    (s : MinHeap.State T) (t : MaxHeap.State T)
    (hs : s.data = []) (ht : t.data = []) :
    MinHeap.step s HeapOp.peek = (HeapObs.err HeapError.emptyStructure, s) ∧
    MinHeap.step s HeapOp.dequeue = (HeapObs.err HeapError.emptyStructure, s) ∧
    MaxHeap.step t HeapOp.peek = (HeapObs.err HeapError.emptyStructure, t) ∧
    MaxHeap.step t HeapOp.dequeue = (HeapObs.err HeapError.emptyStructure, t) :=
  ⟨min_step_peek_empty s hs, min_step_dequeue_empty s hs,
    max_step_peek_empty t ht, max_step_dequeue_empty t ht⟩

/-- Witness for C3 at a freshly constructed (and a capacity-hinted) heap. -/
theorem claim_C3_empty_errors_witness :
    MinHeap.step (⟨[], 4⟩ : MinHeap.State ℕ) HeapOp.peek
      = (HeapObs.err HeapError.emptyStructure, (⟨[], 4⟩ : MinHeap.State ℕ)) ∧
    MinHeap.step (⟨[], 4⟩ : MinHeap.State ℕ) HeapOp.dequeue
      = (HeapObs.err HeapError.emptyStructure, (⟨[], 4⟩ : MinHeap.State ℕ)) ∧
    MaxHeap.step (⟨[], 0⟩ : MaxHeap.State ℕ) HeapOp.peek
      = (HeapObs.err HeapError.emptyStructure, (⟨[], 0⟩ : MaxHeap.State ℕ)) ∧
    MaxHeap.step (⟨[], 0⟩ : MaxHeap.State ℕ) HeapOp.dequeue
      = (HeapObs.err HeapError.emptyStructure, (⟨[], 0⟩ : MaxHeap.State ℕ)) :=
  claim_C3_empty_errors ℕ ⟨[], 4⟩ ⟨[], 0⟩ rfl rfl

/-- Claim C4: `dequeue` on a non-empty heap overwrites the root slot with the
last element, shrinks the sequence by one and repairs downward selecting the
smallest (largest, for `MaxHeap`) of the node and its present children,
preferring the left child on ties — stated as: the remove operation worded
exactly as in the spec (`removeMinSpec`/`removeMaxSpec`) equals the source's
`dequeue` on every input, the successful result carries no value beyond the
new state, and the sequence shrinks by one. -/
theorem claim_C4_remove_algorithm (T : Type) [LinearOrder T] [Inhabited T]
    (l : List T) (hl : l ≠ []) :
    (∀ m : List T, MinHeap.removeMinSpec m = MinHeap.dequeue m) ∧
    (∀ m : List T, MaxHeap.removeMaxSpec m = MaxHeap.dequeue m) ∧
    MinHeap.dequeue l = Except.ok (MinHeap.dequeueData l) ∧
    (MinHeap.dequeueData l).length = l.length - 1 ∧
    MaxHeap.dequeue l = Except.ok (MaxHeap.dequeueData l) ∧
    (MaxHeap.dequeueData l).length = l.length - 1 := by
  refine ⟨fun m => min_removeMinSpec_eq m, fun m => max_removeMaxSpec_eq m,
    ?_, min_length_dequeueData l, ?_, max_length_dequeueData l⟩
  · simp only [MinHeap.dequeue]
    rw [if_neg (fun hc => hl (List.isEmpty_iff.mp hc))]
  · simp only [MaxHeap.dequeue]
    rw [if_neg (fun hc => hl (List.isEmpty_iff.mp hc))]

/-- Witness for C4 on a concrete two-element heap. -/
theorem claim_C4_remove_algorithm_witness :
    (∀ m : List ℕ, MinHeap.removeMinSpec m = MinHeap.dequeue m) ∧
    (∀ m : List ℕ, MaxHeap.removeMaxSpec m = MaxHeap.dequeue m) ∧
    MinHeap.dequeue [1, 3] = Except.ok (MinHeap.dequeueData [1, 3]) ∧
    (MinHeap.dequeueData [1, 3]).length = ([1, 3] : List ℕ).length - 1 ∧
    MaxHeap.dequeue [1, 3] = Except.ok (MaxHeap.dequeueData [1, 3]) ∧
    (MaxHeap.dequeueData [1, 3]).length = ([1, 3] : List ℕ).length - 1 :=
  claim_C4_remove_algorithm ℕ [1, 3] (by decide)

/-- Claim C5: `insert` (`enqueue`) appends the value at the end of the
sequence and repairs upward (`bubbleUp` from the new last index) — that is
its definition — never fails (in the call model it always returns `unit`),
grows the sequence by one, and restores the heap-order invariant over the
entire sequence whenever it held before. -/
theorem claim_C5_insert (T : Type) [LinearOrder T] [Inhabited T]
    (l m : List T) (v w : T) (hl : MinHeap.heapInv l) (hm : MaxHeap.heapInv m) :
    MinHeap.enqueue l v = MinHeap.bubbleUp (l ++ [v]) ((l ++ [v]).length - 1) ∧
    MinHeap.heapInv (MinHeap.enqueue l v) ∧
    (MinHeap.enqueue l v).length = l.length + 1 ∧
    (∀ s : MinHeap.State T, (MinHeap.step s (HeapOp.enqueue v)).1 = HeapObs.unit) ∧
    MaxHeap.enqueue m w = MaxHeap.bubbleUp (m ++ [w]) ((m ++ [w]).length - 1) ∧
    MaxHeap.heapInv (MaxHeap.enqueue m w) ∧
    (MaxHeap.enqueue m w).length = m.length + 1 ∧
    (∀ s : MaxHeap.State T, (MaxHeap.step s (HeapOp.enqueue w)).1 = HeapObs.unit) := by
  refine ⟨rfl, ?_, min_length_enqueue l v, fun s => rfl, rfl, ?_,
    max_length_enqueue m w, fun s => rfl⟩
  · exact (min_heapInvP_iff _).mp (min_heapInvP_enqueue l v ((min_heapInvP_iff _).mpr hl))
  · exact (max_heapInvP_iff _).mp (max_heapInvP_enqueue m w ((max_heapInvP_iff _).mpr hm))

/-- Witness for C5 on concrete heaps satisfying the invariant. -/
theorem claim_C5_insert_witness :
    MinHeap.enqueue [1, 3] 2
        = MinHeap.bubbleUp (([1, 3] : List ℕ) ++ [2]) ((([1, 3] : List ℕ) ++ [2]).length - 1) ∧
    MinHeap.heapInv (MinHeap.enqueue [1, 3] 2) ∧
    (MinHeap.enqueue [1, 3] 2).length = ([1, 3] : List ℕ).length + 1 ∧
    (∀ s : MinHeap.State ℕ, (MinHeap.step s (HeapOp.enqueue 2)).1 = HeapObs.unit) ∧
    MaxHeap.enqueue [3, 1] 2
        = MaxHeap.bubbleUp (([3, 1] : List ℕ) ++ [2]) ((([3, 1] : List ℕ) ++ [2]).length - 1) ∧
    MaxHeap.heapInv (MaxHeap.enqueue [3, 1] 2) ∧
    (MaxHeap.enqueue [3, 1] 2).length = ([3, 1] : List ℕ).length + 1 ∧
    (∀ s : MaxHeap.State ℕ, (MaxHeap.step s (HeapOp.enqueue 2)).1 = HeapObs.unit) :=
  claim_C5_insert ℕ [1, 3] [3, 1] 2 2 (by decide) (by decide)

/-- Claim C6: `enqueue` adds exactly one occurrence of the inserted value to
the stored multiset; a successful `dequeue` removes exactly one occurrence of
the value previously at the root; `peek`, `getSize` and `isEmpty` leave the
stored contents unchanged. -/
theorem claim_C6_multiset (T : Type) [LinearOrder T] [Inhabited T]
    (l m : List T) (hl : l ≠ []) (hm : m ≠ []) :
    (∀ (x : List T) (y : T), (↑(MinHeap.enqueue x y) : Multiset T) = ↑x + {y}) ∧
    (↑(MinHeap.dequeueData l) : Multiset T) = (↑l : Multiset T).erase (l.getD 0 default) ∧
    (∀ s : MinHeap.State T, ((MinHeap.step s HeapOp.peek).2).data = s.data ∧
      ((MinHeap.step s HeapOp.getSize).2).data = s.data ∧
      ((MinHeap.step s HeapOp.isEmpty).2).data = s.data) ∧
    (∀ (x : List T) (y : T), (↑(MaxHeap.enqueue x y) : Multiset T) = ↑x + {y}) ∧
    (↑(MaxHeap.dequeueData m) : Multiset T) = (↑m : Multiset T).erase (m.getD 0 default) ∧
    (∀ s : MaxHeap.State T, ((MaxHeap.step s HeapOp.peek).2).data = s.data ∧
      ((MaxHeap.step s HeapOp.getSize).2).data = s.data ∧
      ((MaxHeap.step s HeapOp.isEmpty).2).data = s.data) := by
  refine ⟨fun x y => min_coe_enqueue x y, ?_, ?_, fun x y => max_coe_enqueue x y, ?_, ?_⟩
  · rw [← min_coe_dequeueData l hl,
      add_comm (↑(MinHeap.dequeueData l) : Multiset T) {l.getD 0 default},
      Multiset.singleton_add, Multiset.erase_cons_head]
  · intro s
    refine ⟨?_, rfl, rfl⟩
    by_cases he : s.data = []
    · rw [min_step_peek_empty s he]
    · rw [min_step_peek_ne s he]
  · rw [← max_coe_dequeueData m hm,
      add_comm (↑(MaxHeap.dequeueData m) : Multiset T) {m.getD 0 default},
      Multiset.singleton_add, Multiset.erase_cons_head]
  · intro s
    refine ⟨?_, rfl, rfl⟩
    by_cases he : s.data = []
    · rw [max_step_peek_empty s he]
    · rw [max_step_peek_ne s he]

/-- Witness for C6 on concrete non-empty heaps. -/
theorem claim_C6_multiset_witness :
    (∀ (x : List ℕ) (y : ℕ), (↑(MinHeap.enqueue x y) : Multiset ℕ) = ↑x + {y}) ∧
    (↑(MinHeap.dequeueData [1, 2]) : Multiset ℕ)
      = (↑([1, 2] : List ℕ) : Multiset ℕ).erase (([1, 2] : List ℕ).getD 0 default) ∧
    (∀ s : MinHeap.State ℕ, ((MinHeap.step s HeapOp.peek).2).data = s.data ∧
      ((MinHeap.step s HeapOp.getSize).2).data = s.data ∧
      ((MinHeap.step s HeapOp.isEmpty).2).data = s.data) ∧
    (∀ (x : List ℕ) (y : ℕ), (↑(MaxHeap.enqueue x y) : Multiset ℕ) = ↑x + {y}) ∧
    (↑(MaxHeap.dequeueData [2, 1]) : Multiset ℕ)
      = (↑([2, 1] : List ℕ) : Multiset ℕ).erase (([2, 1] : List ℕ).getD 0 default) ∧
    (∀ s : MaxHeap.State ℕ, ((MaxHeap.step s HeapOp.peek).2).data = s.data ∧
      ((MaxHeap.step s HeapOp.getSize).2).data = s.data ∧
      ((MaxHeap.step s HeapOp.isEmpty).2).data = s.data) :=
  claim_C6_multiset ℕ [1, 2] [2, 1] (by decide) (by decide)

/-- Claim C7: at every point of every call sequence from an empty heap,
`getSize` equals the number of successful inserts minus the number of
successful removes (stated additively over `Nat`: size + removes = inserts);
`isEmpty` is true iff `getSize` is zero; and neither `getSize` nor `isEmpty`
can fail or mutate the state. -/
theorem claim_C7_size_accounting (T : Type) [LinearOrder T] [Inhabited T]
    (ops : List (HeapOp T)) :
    MinHeap.getSize ((MinHeap.runTr MinHeap.init ops).2).data
        + countRemOk ((MinHeap.runTr MinHeap.init ops).1)
      = countIns ((MinHeap.runTr MinHeap.init ops).1) ∧
    (∀ s : MinHeap.State T,
      ((MinHeap.step s HeapOp.isEmpty).1 = HeapObs.bool true ↔
        (MinHeap.step s HeapOp.getSize).1 = HeapObs.num 0) ∧
      (MinHeap.step s HeapOp.getSize).2 = s ∧
      (MinHeap.step s HeapOp.isEmpty).2 = s ∧
      ∀ e, (MinHeap.step s HeapOp.getSize).1 ≠ HeapObs.err e ∧
        (MinHeap.step s HeapOp.isEmpty).1 ≠ HeapObs.err e) ∧
    MaxHeap.getSize ((MaxHeap.runTr MaxHeap.init ops).2).data
        + countRemOk ((MaxHeap.runTr MaxHeap.init ops).1)
      = countIns ((MaxHeap.runTr MaxHeap.init ops).1) ∧
    (∀ s : MaxHeap.State T,
      ((MaxHeap.step s HeapOp.isEmpty).1 = HeapObs.bool true ↔
        (MaxHeap.step s HeapOp.getSize).1 = HeapObs.num 0) ∧
      (MaxHeap.step s HeapOp.getSize).2 = s ∧
      (MaxHeap.step s HeapOp.isEmpty).2 = s ∧
      ∀ e, (MaxHeap.step s HeapOp.getSize).1 ≠ HeapObs.err e ∧
        (MaxHeap.step s HeapOp.isEmpty).1 ≠ HeapObs.err e) := by
  refine ⟨?_, ?_, ?_, ?_⟩
  · have := min_size_runTr ops MinHeap.init
    simp only [MinHeap.getSize]
    simpa [MinHeap.init] using this
  · intro s
    refine ⟨?_, rfl, rfl, fun e => ⟨by simp [min_step_getSize], by simp [min_step_isEmptyOp]⟩⟩
    rw [min_step_isEmptyOp, min_step_getSize]
    simp [List.isEmpty_iff, List.length_eq_zero]
  · have := max_size_runTr ops MaxHeap.init
    simp only [MaxHeap.getSize]
    simpa [MaxHeap.init] using this
  · intro s
    refine ⟨?_, rfl, rfl, fun e => ⟨by simp [max_step_getSize], by simp [max_step_isEmptyOp]⟩⟩
    rw [max_step_isEmptyOp, max_step_getSize]
    simp [List.isEmpty_iff, List.length_eq_zero]

/-- Claim C8: on a non-empty heap, `peek` returns (by value) the element at
index 0 and does not mutate the structure; two successive `peek` calls with no
intervening mutation return the same value and leave `getSize` unchanged. -/
theorem claim_C8_peek_frame (T : Type) [LinearOrder T] [Inhabited T]
    (s : MinHeap.State T) (t : MaxHeap.State T)
    (hs : s.data ≠ []) (ht : t.data ≠ []) :
    (MinHeap.step s HeapOp.peek).1 = HeapObs.val (s.data.getD 0 default) ∧
    (MinHeap.step s HeapOp.peek).2 = s ∧
    (MinHeap.step ((MinHeap.step s HeapOp.peek).2) HeapOp.peek).1
      = (MinHeap.step s HeapOp.peek).1 ∧
    (MinHeap.step ((MinHeap.step s HeapOp.peek).2) HeapOp.getSize).1
      = (MinHeap.step s HeapOp.getSize).1 ∧
    (MaxHeap.step t HeapOp.peek).1 = HeapObs.val (t.data.getD 0 default) ∧
    (MaxHeap.step t HeapOp.peek).2 = t ∧
    (MaxHeap.step ((MaxHeap.step t HeapOp.peek).2) HeapOp.peek).1
      = (MaxHeap.step t HeapOp.peek).1 ∧
    (MaxHeap.step ((MaxHeap.step t HeapOp.peek).2) HeapOp.getSize).1
      = (MaxHeap.step t HeapOp.getSize).1 := by
  rw [min_step_peek_ne s hs, max_step_peek_ne t ht]
  refine ⟨rfl, rfl, ?_, rfl, rfl, rfl, ?_, rfl⟩
  · rw [min_step_peek_ne s hs]
  · rw [max_step_peek_ne t ht]

/-- Witness for C8 on concrete non-empty heaps. -/
theorem claim_C8_peek_frame_witness :
    (MinHeap.step (⟨[2, 5], 0⟩ : MinHeap.State ℕ) HeapOp.peek).1
      = HeapObs.val (([2, 5] : List ℕ).getD 0 default) ∧
    (MinHeap.step (⟨[2, 5], 0⟩ : MinHeap.State ℕ) HeapOp.peek).2 = ⟨[2, 5], 0⟩ ∧
    (MinHeap.step ((MinHeap.step (⟨[2, 5], 0⟩ : MinHeap.State ℕ) HeapOp.peek).2)
        HeapOp.peek).1
      = (MinHeap.step (⟨[2, 5], 0⟩ : MinHeap.State ℕ) HeapOp.peek).1 ∧
    (MinHeap.step ((MinHeap.step (⟨[2, 5], 0⟩ : MinHeap.State ℕ) HeapOp.peek).2)
        HeapOp.getSize).1
      = (MinHeap.step (⟨[2, 5], 0⟩ : MinHeap.State ℕ) HeapOp.getSize).1 ∧
    (MaxHeap.step (⟨[5, 2], 3⟩ : MaxHeap.State ℕ) HeapOp.peek).1
      = HeapObs.val (([5, 2] : List ℕ).getD 0 default) ∧
    (MaxHeap.step (⟨[5, 2], 3⟩ : MaxHeap.State ℕ) HeapOp.peek).2 = ⟨[5, 2], 3⟩ ∧
    (MaxHeap.step ((MaxHeap.step (⟨[5, 2], 3⟩ : MaxHeap.State ℕ) HeapOp.peek).2)
        HeapOp.peek).1
      = (MaxHeap.step (⟨[5, 2], 3⟩ : MaxHeap.State ℕ) HeapOp.peek).1 ∧
    (MaxHeap.step ((MaxHeap.step (⟨[5, 2], 3⟩ : MaxHeap.State ℕ) HeapOp.peek).2)
        HeapOp.getSize).1
      = (MaxHeap.step (⟨[5, 2], 3⟩ : MaxHeap.State ℕ) HeapOp.getSize).1 :=
  claim_C8_peek_frame ℕ ⟨[2, 5], 0⟩ ⟨[5, 2], 3⟩ (by decide) (by decide)

/-- Claim C9: a heap constructed with the capacity-hint constructor behaves
observably exactly like a default-constructed heap on every subsequent call
sequence: the full observation trace and the stored sequence coincide; the
hint affects only the unobservable reserved capacity. -/
theorem claim_C9_capacity_hint (T : Type) [LinearOrder T] [Inhabited T]
    (n : Nat) (ops : List (HeapOp T)) :
    (MinHeap.runTr (MinHeap.initCap n) ops).1 = (MinHeap.runTr MinHeap.init ops).1 ∧
    ((MinHeap.runTr (MinHeap.initCap n) ops).2).data
      = ((MinHeap.runTr MinHeap.init ops).2).data ∧
    (MaxHeap.runTr (MaxHeap.initCap n) ops).1 = (MaxHeap.runTr MaxHeap.init ops).1 ∧
    ((MaxHeap.runTr (MaxHeap.initCap n) ops).2).data
      = ((MaxHeap.runTr MaxHeap.init ops).2).data := by
  obtain ⟨h1, h2⟩ := min_runTr_cap ops (MinHeap.initCap n) MinHeap.init rfl
  obtain ⟨h3, h4⟩ := max_runTr_cap ops (MaxHeap.initCap n) MaxHeap.init rfl
  exact ⟨h1, h2, h3, h4⟩

/-- Claim C10: the recursive downward repair is a total function (it is
defined by well-founded recursion on `l.length - index`, so it terminates on
every input); its recursion depth from an in-bounds start index is bounded by
`log2 (n + 1)`; and the iterative downward repair (`bubbleDown`, the
fuel-based loop) is behaviorally equal to the recursion on all inputs. -/
theorem claim_C10_downward_repair (T : Type) [LinearOrder T] [Inhabited T]
    (l m : List T) (i j : Nat) (hi : i < l.length) (hj : j < m.length) :
    MinHeap.bubbleDownDepth l i ≤ Nat.log 2 (l.length + 1) ∧
    (∀ (x : List T) (k : Nat), MinHeap.bubbleDownRec x k = MinHeap.bubbleDown x k) ∧
    MaxHeap.bubbleDownDepth m j ≤ Nat.log 2 (m.length + 1) ∧
    (∀ (x : List T) (k : Nat), MaxHeap.bubbleDownRec x k = MaxHeap.bubbleDown x k) :=
  ⟨min_depth_log l i hi, fun x k => min_bubbleDownRec_eq x k,
    max_depth_log m j hj, fun x k => max_bubbleDownRec_eq x k⟩

/-- Witness for C10 at concrete in-bounds indices. -/
theorem claim_C10_downward_repair_witness :
    MinHeap.bubbleDownDepth ([4, 1, 2] : List ℕ) 0 ≤ Nat.log 2 (([4, 1, 2] : List ℕ).length + 1) ∧
    (∀ (x : List ℕ) (k : Nat), MinHeap.bubbleDownRec x k = MinHeap.bubbleDown x k) ∧
    MaxHeap.bubbleDownDepth ([1, 4, 2] : List ℕ) 0 ≤ Nat.log 2 (([1, 4, 2] : List ℕ).length + 1) ∧
    (∀ (x : List ℕ) (k : Nat), MaxHeap.bubbleDownRec x k = MaxHeap.bubbleDown x k) :=
  claim_C10_downward_repair ℕ [4, 1, 2] [1, 4, 2] 0 0 (by decide) (by decide)
